import Mathlib

/-!
# Verification of the OCR shipping-label extraction pipeline (`extract.py`)

Shallow embedding of the single-file Python program.  Strings are `List Char`
(wrappers take `String` and use `.data`).  Python's `re` module is modelled by
dedicated scanners faithful to the specific patterns the program uses; the
`\w`, `\s`, `[a-z]`, `\d` character classes and `str.lower` / `str.strip` /
`str.title` are modelled over their ASCII behaviour (the program's whitelist,
stopwords and patterns are ASCII).  `difflib.SequenceMatcher.ratio` is
modelled exactly for the no-junk case (`autojunk` only changes behaviour when
the second string has length ≥ 200; all whitelist entries are far shorter);
floats are modelled by exact rationals.  Fallible code returns
`Option`/`Except`; bounded recursion uses explicit fuel so that every
definition evaluates by kernel reduction.
-/

namespace Extract

/-! ## Character classes (ASCII fragments of Python's `re` classes) -/

/-- Python `\w` (ASCII): letters, digits, underscore. -/
def wordChar (c : Char) : Bool := c.isAlphanum || c = '_'

/-- Python `\s` (ASCII): space, tab, newline, carriage return, vertical tab, form feed. -/
def wsChar (c : Char) : Bool :=
  c = ' ' || c = '\t' || c = '\n' || c = '\r' || c = '\x0b' || c = '\x0c'

/-- The class `[a-z]`. -/
def lowerAlpha (c : Char) : Bool := 'a' ≤ c && c ≤ 'z'

/-- `str.lower()` (ASCII behaviour). -/
def lowerL (s : List Char) : List Char := s.map Char.toLower

/-- `str.strip()` with no argument: remove whitespace from both ends. -/
def stripL (s : List Char) : List Char :=
  ((s.dropWhile wsChar).reverse.dropWhile wsChar).reverse

/-! ## `re.findall(r"[a-z]{3,}", text)`: maximal lowercase-alphabetic runs, length ≥ 3 -/

/-- Maximal runs of characters satisfying `p`, in order. -/
def runsOf (p : Char → Bool) : List Char → List Char → List (List Char)
  | [], acc => if acc.isEmpty then [] else [acc.reverse]
  | c :: cs, acc =>
    if p c then runsOf p cs (c :: acc)
    else if acc.isEmpty then runsOf p cs []
    else acc.reverse :: runsOf p cs []

/-- `re.findall(r"[a-z]{3,}", text.lower())`: the greedy matches are exactly the
maximal `[a-z]` runs of length at least 3. -/
def wordsOf (text : List Char) : List (List Char) :=
  (runsOf lowerAlpha (lowerL text) []).filter (fun w => 3 ≤ w.length)

/-- The consecutive bigrams `f"{words[i]} {words[i+1]}"`. -/
def bigramsOf (ws : List (List Char)) : List (List Char) :=
  (ws.zip ws.tail).map (fun p => p.1 ++ ' ' :: p.2)

/-! ## `difflib.SequenceMatcher` (no junk, `autojunk` inactive for `|b| < 200`) -/

/-- Length of the longest common prefix. -/
def lcp : List Char → List Char → Nat
  | a :: as, b :: bs => if a = b then lcp as bs + 1 else 0
  | _, _ => 0

/-- `find_longest_match` over whole strings: the triple `(i, j, k)` with the
largest `k` such that `a[i:i+k] = b[j:j+k]`, ties broken by least `i`, then
least `j`; `(0, 0, 0)` when there is no nonempty common block.  This is the
documented contract of `difflib`'s routine; the row-scan with its strict
`k > bestsize` update realises exactly this choice. -/
def flmJ (a b : List Char) (i : Nat) : List Nat → Nat × Nat × Nat → Nat × Nat × Nat
  | [], best => best
  | j :: js, best =>
    if best.2.2 < lcp (a.drop i) (b.drop j) then
      flmJ a b i js (i, j, lcp (a.drop i) (b.drop j))
    else flmJ a b i js best

def flmI (a b : List Char) : List Nat → Nat × Nat × Nat → Nat × Nat × Nat
  | [], best => best
  | i :: is, best => flmI a b is (flmJ a b i (List.range b.length) best)

def flm (a b : List Char) : Nat × Nat × Nat :=
  flmI a b (List.range a.length) (0, 0, 0)

/-- Total size of the matching blocks (`get_matching_blocks`), by the
divide-and-conquer recursion of `difflib`: take the longest block, recurse on
what is left of it and right of it.  Fuel `|a| + |b|` always suffices
(each recursive region is strictly smaller). -/
def smTotalF : Nat → List Char → List Char → Nat
  | 0, _, _ => 0
  | fuel + 1, a, b =>
    match flm a b with
    | (i, j, k) =>
      if k = 0 then 0
      else
        smTotalF fuel (a.take i) (b.take j) + k +
          smTotalF fuel (a.drop (i + k)) (b.drop (j + k))

/-- Number of matched characters between `a` and `b`. -/
def smTotal (a b : List Char) : Nat := smTotalF (a.length + b.length) a b

/-- `SequenceMatcher.ratio()`: `2M / (|a| + |b|)`, and `1` for two empty
strings (`difflib._calculate_ratio`).  Python's float is modelled by the exact
rational. -/
def ratioQ (a b : List Char) : ℚ :=
  if a.length + b.length = 0 then 1
  else (2 * smTotal a b : ℚ) / (a.length + b.length : ℚ)

/-- `similarity(a, b) = SequenceMatcher(None, a.lower(), b.lower()).ratio()`. -/
def similarity (a b : List Char) : ℚ := ratioQ (lowerL a) (lowerL b)

/-- The same ratio as an unreduced fraction `(numerator, denominator)` of
naturals, `(2M, |a| + |b|)` (and `(1, 1)` for two empty strings).  The
pipeline's float comparisons are modelled exactly by cross-multiplication on
this fraction; `simFrac_val` and the `fracLt`/`fracGe34` lemmas below prove
the correspondence with the rational value `similarity`. -/
def simFrac (a b : List Char) : Nat × Nat :=
  let a' := lowerL a
  let b' := lowerL b
  if a'.length + b'.length = 0 then (1, 1)
  else (2 * smTotal a' b', a'.length + b'.length)

/-! ## The whitelist and the Name Resolver -/

/-- `KNOWN_RECIPIENTS`. -/
def KNOWN_RECIPIENTS : List (List Char) :=
  [("Zoey Dong" : String).data, ("Syta Saephan" : String).data,
   ("Ky Dong" : String).data, ("Tashayanna Mixson" : String).data]

/-- The inner `for real in KNOWN_RECIPIENTS` loop of the best-pair scan. -/
def bestInner (cand : List Char) :
    List (List Char) → List Char × Nat × Nat → List Char × Nat × Nat
  | [], acc => acc
  | real :: reals, acc =>
    let score := simFrac cand real
    if acc.2.1 * score.2 < score.1 * acc.2.2 then bestInner cand reals (real, score)
    else bestInner cand reals acc

/-- The outer `for cand in candidates` loop of the best-pair scan. -/
def bestOuter : List (List Char) → List Char × Nat × Nat → List Char × Nat × Nat
  | [], acc => acc
  | cand :: cands, acc => bestOuter cands (bestInner cand KNOWN_RECIPIENTS acc)

/-- `match_known_name_from_text`: tokenize, form bigrams, track the best
`(score > best_score)` pair over candidates (outer) × whitelist (inner), and
return the best name when the best score reaches `0.75`.  Scores are the
exact values of the Python floats, carried as unreduced fractions:
`score > best_score` is cross-multiplication, `best_score >= 0.75` is
`3·den ≤ 4·num` (see `bestInner_models_rat` and `simFrac_val` below). -/
def match_known_name_from_text (text : List Char) : List Char :=
  let best := bestOuter (bigramsOf (wordsOf text)) ([], 0, 1)
  if 3 * best.2.2 ≤ 4 * best.2.1 then best.1 else []

/-! ## The Normalizer: `clean_ocr`

Each `re.sub(pattern, "", text)` is modelled by a left-to-right scan
(`scrub`): at each position, a pattern-specific matcher decides whether a
match starts there and how many characters it spans (`re`'s leftmost-match
rule); matched spans are dropped, everything else is kept.  A matcher
receives the previous character of the *original* text (`none` at the start)
because `\b` is evaluated on the original text. -/

/-- The leading `\b` of the program's patterns: position 0 or after a
non-word character (every pattern starts with a word character). -/
def bnd : Option Char → Bool
  | none => true
  | some c => !wordChar c

/-- `\b` after position `k`: end of string or a non-word character. -/
def bndAfter (s : List Char) (k : Nat) : Bool :=
  match s.get? k with
  | none => true
  | some c => !wordChar c

/-- Matcher for `\b\d+(\.\d+)?\s?lbs\b` at the head of `s`.  `\d+` (and the
`\d+` after the optional dot) are forced to their maximal extent: shrinking
them leaves a digit next, which no later pattern piece accepts, so the
backtracking regex engine finds exactly the cases below. -/
def matchWeight (prev : Option Char) (s : List Char) : Option Nat :=
  if !bnd prev then none
  else
    let d := (s.takeWhile Char.isDigit).length
    if d = 0 then none
    else
      -- optional (\.\d+): present only if a dot with at least one digit follows
      let e :=
        match s.drop d with
        | '.' :: t => let e0 := (t.takeWhile Char.isDigit).length
                      if e0 = 0 then 0 else 1 + e0
        | _ => 0
      let k := d + e
      match s.drop k with
      | c :: rest =>
        if wsChar c then
          -- greedy \s? takes the one whitespace character
          if ('l' :: 'b' :: 's' :: []).isPrefixOf rest && bndAfter s (k + 4) then
            some (k + 4)
          else none
        else
          if ('l' :: 'b' :: 's' :: []).isPrefixOf (c :: rest) && bndAfter s (k + 3) then
            some (k + 3)
          else none
      | [] => none

/-- Matcher for `\b\d{10,}\b`: a maximal digit run of length ≥ 10 ending at
a word boundary. -/
def matchDigits (prev : Option Char) (s : List Char) : Option Nat :=
  if !bnd prev then none
  else
    let d := (s.takeWhile Char.isDigit).length
    if 10 ≤ d && bndAfter s d then some d else none

/-- Matcher for `\b(united states|usa)\b`, alternatives in source order. -/
def matchCountry (prev : Option Char) (s : List Char) : Option Nat :=
  if !bnd prev then none
  else
    if ("united states" : String).data.isPrefixOf s && bndAfter s 13 then some 13
    else if ("usa" : String).data.isPrefixOf s && bndAfter s 3 then some 3
    else none

/-- The stopword list of the fourth substitution, in source order. -/
def STOPWORDS : List (List Char) :=
  [("priority" : String).data, ("ground" : String).data, ("tracking" : String).data,
   ("fedex" : String).data, ("ups" : String).data, ("usps" : String).data,
   ("billing" : String).data, ("sender" : String).data, ("postage" : String).data]

/-- Matcher for `\b(priority|ground|...|postage)\b`. -/
def matchStop (prev : Option Char) (s : List Char) : Option Nat :=
  if !bnd prev then none
  else
    STOPWORDS.findSome? fun w =>
      if w.isPrefixOf s && bndAfter s w.length then some w.length else none

/-- One `re.sub(pat, "", text)` pass: scan left to right, drop each match,
resume after it (`prev` tracks the previous character of the original text).
Fuel `|s|` suffices because every match is nonempty. -/
def scrubF (m : Option Char → List Char → Option Nat) :
    Nat → Option Char → List Char → List Char
  | 0, _, s => s
  | fuel + 1, prev, s =>
    match s with
    | [] => []
    | c :: cs =>
      match m prev (c :: cs) with
      | some k => scrubF m fuel ((c :: cs).get? (k - 1)) ((c :: cs).drop k)
      | none => c :: scrubF m fuel (some c) cs

def scrub (m : Option Char → List Char → Option Nat) (s : List Char) : List Char :=
  scrubF m s.length none s

/-- `re.sub(r"\s+", " ", text)`: every whitespace run becomes one space. -/
def collapseWs : List Char → List Char
  | [] => []
  | [c] => if wsChar c then [' '] else [c]
  | a :: b :: rest =>
    if wsChar a && wsChar b then collapseWs (b :: rest)
    else (if wsChar a then ' ' else a) :: collapseWs (b :: rest)

/-- `clean_ocr`. -/
def clean_ocr (text : List Char) : List Char :=
  let t0 := lowerL text
  let t1 := scrub matchWeight t0
  let t2 := scrub matchDigits t1
  let t3 := scrub matchCountry t2
  let t4 := scrub matchStop t3
  stripL (collapseWs t4)

/-! ## The Address Resolver: `fallback_address`

The two patterns are modelled by an explicit backtracking matcher whose
choice points are explored in the engine's preference order: greedy
quantifiers longest-first, the lazy `[a-z\s]+?` shortest-first, alternations
in source order, later choice points exhausted before earlier ones retry
(nested `findSome?`). -/

/-- Candidate lengths for a greedy `class+` at the head of `s`: the maximal
run length down to `1`. -/
def descLens (cls : Char → Bool) (s : List Char) : List Nat :=
  let n := (s.takeWhile cls).length
  (List.range n).map (fun i => n - i)

/-- Candidate lengths for the lazy `class+?`: `1` up to the maximal run. -/
def ascLens (cls : Char → Bool) (s : List Char) : List Nat :=
  let n := (s.takeWhile cls).length
  (List.range n).map (fun i => i + 1)

/-- Candidate lengths for a greedy `class{lo,hi}`: `min hi run` down to `lo`. -/
def descLensRange (cls : Char → Bool) (lo hi : Nat) (s : List Char) : List Nat :=
  let n := min hi (s.takeWhile cls).length
  ((List.range (n + 1)).map (fun i => n - i)).filter (fun k => lo ≤ k)

/-- The street-designator alternation, in source order. -/
def DESIGNATORS : List (List Char) :=
  [("dr" : String).data, ("drive" : String).data, ("st" : String).data,
   ("street" : String).data, ("blvd" : String).data, ("boulevard" : String).data,
   ("lane" : String).data, ("ln" : String).data, ("rd" : String).data,
   ("road" : String).data, ("parkway" : String).data, ("pkwy" : String).data,
   ("ave" : String).data, ("avenue" : String).data]

/-- The state-code alternation `(?:ca|nd|tx|ga)`, in source order. -/
def STATES : List (List Char) :=
  [("ca" : String).data, ("nd" : String).data, ("tx" : String).data,
   ("ga" : String).data]

/-- The class `[a-z0-9\s]`. -/
def addrCls (c : Char) : Bool := lowerAlpha c || c.isDigit || wsChar c

/-- The class `[a-z\s]`. -/
def cityCls (c : Char) : Bool := lowerAlpha c || wsChar c

/-- Match one of the two address patterns at the head of `s`, returning the
match length.  `zip = true` is the first pattern
`\d{3,6}\s+[a-z0-9\s]+(?:dr|...|avenue)\s+[a-z\s]+?\s+(?:ca|nd|tx|ga)\s+\d{5}(?:-\d{4})?`,
`zip = false` the second, which stops after the state code. -/
def matchAddr (zip : Bool) (s : List Char) : Option Nat :=
  (descLensRange Char.isDigit 3 6 s).findSome? fun n1 =>
  let s1 := s.drop n1
  (descLens wsChar s1).findSome? fun n2 =>
  let s2 := s1.drop n2
  (descLens addrCls s2).findSome? fun n3 =>
  let s3 := s2.drop n3
  DESIGNATORS.findSome? fun d =>
  if d.isPrefixOf s3 then
    let s4 := s3.drop d.length
    (descLens wsChar s4).findSome? fun n5 =>
    let s5 := s4.drop n5
    (ascLens cityCls s5).findSome? fun n6 =>
    let s6 := s5.drop n6
    (descLens wsChar s6).findSome? fun n7 =>
    let s7 := s6.drop n7
    STATES.findSome? fun st =>
    if st.isPrefixOf s7 then
      let base := n1 + n2 + n3 + d.length + n5 + n6 + n7 + st.length
      if zip then
        let s8 := s7.drop st.length
        (descLens wsChar s8).findSome? fun n9 =>
        let s9 := s8.drop n9
        if 5 ≤ (s9.takeWhile Char.isDigit).length then
          match s9.drop 5 with
          | '-' :: t =>
            if 4 ≤ (t.takeWhile Char.isDigit).length then some (base + n9 + 10)
            else some (base + n9 + 5)
          | _ => some (base + n9 + 5)
        else none
      else some base
    else none
  else none

/-- `re.search`: try the matcher at each position left to right; on the first
success return the matched span. -/
def reSearchSpan (m : List Char → Option Nat) : List Char → Option (List Char)
  | [] => match m [] with | some _ => some [] | none => none
  | c :: cs =>
    match m (c :: cs) with
    | some k => some ((c :: cs).take k)
    | none => reSearchSpan m cs

/-- `str.title()` (ASCII): uppercase a letter not preceded by a letter,
lowercase a letter preceded by one. -/
def pyTitleAux : Bool → List Char → List Char
  | _, [] => []
  | prevCased, c :: cs =>
    if c.isAlpha then
      (if prevCased then c.toLower else c.toUpper) :: pyTitleAux true cs
    else c :: pyTitleAux false cs

def pyTitle (s : List Char) : List Char := pyTitleAux false s

/-- `fallback_address`: lower-case, try the two patterns in order, title-case
the first match; empty if neither matches. -/
def fallback_address (text : List Char) : List Char :=
  let t := lowerL text
  match reSearchSpan (matchAddr true) t with
  | some sp => pyTitle sp
  | none =>
    match reSearchSpan (matchAddr false) t with
    | some sp => pyTitle sp
    | none => []

/-! ## `json.loads` and the Structured-Response Parser

A faithful model of CPython's strict JSON decoder on the fragments the
pipeline can meet: objects, arrays, strings (with escapes and surrogate
pairs; unescaped control characters rejected), `null`/`true`/`false`,
numbers and the `NaN`/`Infinity`/`-Infinity` constants.  Numeric values are
kept as their lexemes — the pipeline never looks at a number's value, only
at whether a field is a string.  A lone surrogate escape, which CPython
stores as an unpaired surrogate code unit, is mapped through `Char.ofNat`
(hence to `U+0000`); no claim depends on that corner. -/

inductive JVal where
  | null : JVal
  | bool : Bool → JVal
  | num : List Char → JVal
  | str : List Char → JVal
  | arr : List JVal → JVal
  | obj : List (List Char × JVal) → JVal

/-- JSON whitespace (`json.decoder.WHITESPACE`). -/
def jsonWs (c : Char) : Bool := c = ' ' || c = '\t' || c = '\n' || c = '\r'

def skipWs (s : List Char) : List Char := s.dropWhile jsonWs

def hexVal (c : Char) : Option Nat :=
  if c.isDigit then some (c.toNat - 48)
  else if 'a' ≤ c && c ≤ 'f' then some (c.toNat - 87)
  else if 'A' ≤ c && c ≤ 'F' then some (c.toNat - 55)
  else none

def hex4 : List Char → Option (Nat × List Char)
  | a :: b :: c :: d :: rest =>
    match hexVal a, hexVal b, hexVal c, hexVal d with
    | some x, some y, some z, some w => some (((x * 16 + y) * 16 + z) * 16 + w, rest)
    | _, _, _, _ => none
  | _ => none

/-- The single-character escapes accepted by the decoder. -/
def escChar : Char → Option Char
  | '"' => some '"'
  | '\\' => some '\\'
  | '/' => some '/'
  | 'b' => some '\x08'
  | 'f' => some '\x0c'
  | 'n' => some '\n'
  | 'r' => some '\r'
  | 't' => some '\t'
  | _ => none

/-- `py_scanstring` after the opening quote: returns the decoded content and
the rest after the closing quote. -/
def scanStringF : Nat → List Char → Option (List Char × List Char)
  | 0, _ => none
  | _, [] => none
  | fuel + 1, c :: cs =>
    if c = '"' then some ([], cs)
    else if c = '\\' then
      match cs with
      | [] => none
      | e :: cs' =>
        if e = 'u' then
          match hex4 cs' with
          | none => none
          | some (n, rest) =>
            if 0xd800 ≤ n && n ≤ 0xdbff then
              match rest with
              | '\\' :: 'u' :: rest2 =>
                -- CPython insists the following \uXXXX escape is well formed
                match hex4 rest2 with
                | none => none
                | some (m, rest3) =>
                  if 0xdc00 ≤ m && m ≤ 0xdfff then
                    (fun p => (Char.ofNat (0x10000 + (n - 0xd800) * 0x400 + (m - 0xdc00)) :: p.1, p.2))
                      <$> scanStringF fuel rest3
                  else (fun p => (Char.ofNat n :: p.1, p.2)) <$> scanStringF fuel rest
              | _ => (fun p => (Char.ofNat n :: p.1, p.2)) <$> scanStringF fuel rest
            else (fun p => (Char.ofNat n :: p.1, p.2)) <$> scanStringF fuel rest
        else
          match escChar e with
          | some ec => (fun p => (ec :: p.1, p.2)) <$> scanStringF fuel cs'
          | none => none
    else if c.toNat < 0x20 then none   -- strict mode: raw control characters rejected
    else (fun p => (c :: p.1, p.2)) <$> scanStringF fuel cs

def scanStr (s : List Char) : Option (List Char × List Char) :=
  scanStringF (s.length + 1) s

/-- The decoder's `NUMBER_RE`: `-?(0|[1-9]\d*)(\.\d+)?([eE][+-]?\d+)?`,
returning the lexeme and the rest. -/
def scanNumber (s : List Char) : Option (List Char × List Char) :=
  let (sign, s1) := match s with | '-' :: t => (['-'], t) | _ => (([] : List Char), s)
  match s1 with
  | c :: rest =>
    if c = '0' || (c.isDigit && c ≠ '0') then
      let intPart := if c = '0' then [c] else c :: rest.takeWhile Char.isDigit
      let s2 := s1.drop intPart.length
      let frac :=
        match s2 with
        | '.' :: t => let ds := t.takeWhile Char.isDigit
                      if ds.isEmpty then [] else '.' :: ds
        | _ => []
      let s3 := s2.drop frac.length
      let expPart :=
        match s3 with
        | e :: t =>
          if e = 'e' || e = 'E' then
            let (sgn, t2) := match t with
              | '+' :: u => (['+'], u)
              | '-' :: u => (['-'], u)
              | _ => (([] : List Char), t)
            let ds := t2.takeWhile Char.isDigit
            if ds.isEmpty then [] else e :: (sgn ++ ds)
          else []
        | [] => []
      let lexeme := sign ++ intPart ++ frac ++ expPart
      some (lexeme, s.drop lexeme.length)
    else none
  | [] => none

/-- `scan_once`'s object-member loop (entered at the first key; `pv` parses
one value). -/
def parseMembers (pv : List Char → Option (JVal × List Char)) :
    Nat → List (List Char × JVal) → List Char → Option (JVal × List Char)
  | 0, _, _ => none
  | fuel + 1, acc, s =>
    match s with
    | '"' :: cs =>
      match scanStr cs with
      | none => none
      | some (key, r1) =>
        match skipWs r1 with
        | ':' :: r3 =>
          match pv (skipWs r3) with
          | none => none
          | some (v, r4) =>
            match skipWs r4 with
            | ',' :: r6 => parseMembers pv fuel (acc ++ [(key, v)]) (skipWs r6)
            | '}' :: r6 => some (JVal.obj (acc ++ [(key, v)]), r6)
            | _ => none
        | _ => none
    | _ => none

/-- `scan_once`'s array-item loop. -/
def parseItems (pv : List Char → Option (JVal × List Char)) :
    Nat → List JVal → List Char → Option (JVal × List Char)
  | 0, _, _ => none
  | fuel + 1, acc, s =>
    match pv s with
    | none => none
    | some (v, r1) =>
      match skipWs r1 with
      | ',' :: r3 => parseItems pv fuel (acc ++ [v]) (skipWs r3)
      | ']' :: r3 => some (JVal.arr (acc ++ [v]), r3)
      | _ => none

/-- `scan_once`: parse one JSON value at the head of `s`. -/
def parseVal : Nat → List Char → Option (JVal × List Char)
  | 0, _ => none
  | fuel + 1, s =>
    match s with
    | '"' :: cs => (fun p => (JVal.str p.1, p.2)) <$> scanStr cs
    | '{' :: cs =>
      let r := skipWs cs
      match r with
      | '}' :: rest => some (JVal.obj [], rest)
      | _ => parseMembers (parseVal fuel) (r.length + 1) [] r
    | '[' :: cs =>
      let r := skipWs cs
      match r with
      | ']' :: rest => some (JVal.arr [], rest)
      | _ => parseItems (parseVal fuel) (r.length + 1) [] r
    | _ =>
      if ("null" : String).data.isPrefixOf s then some (JVal.null, s.drop 4)
      else if ("true" : String).data.isPrefixOf s then some (JVal.bool true, s.drop 4)
      else if ("false" : String).data.isPrefixOf s then some (JVal.bool false, s.drop 5)
      else
        match scanNumber s with
        | some (lex, rest) => some (JVal.num lex, rest)
        | none =>
          if ("NaN" : String).data.isPrefixOf s then some (JVal.num (("NaN" : String).data), s.drop 3)
          else if ("Infinity" : String).data.isPrefixOf s then
            some (JVal.num (("Infinity" : String).data), s.drop 8)
          else if ("-Infinity" : String).data.isPrefixOf s then
            some (JVal.num (("-Infinity" : String).data), s.drop 9)
          else none

/-- `json.loads`: skip leading whitespace, parse one value, and insist that
only whitespace remains (otherwise "Extra data"). -/
def loadsJson (s : List Char) : Option JVal :=
  let t := skipWs s
  match parseVal (t.length + 1) t with
  | some (v, rest) => if (skipWs rest).isEmpty then some v else none
  | none => none

/-- The match of `re.search(r"\{.*\}", resp, re.DOTALL)`: from the first
opening brace to the last closing brace, which must come after it. -/
def braceSpan (resp : List Char) : Option (List Char) :=
  match resp.findIdx? (fun c => c = '{') with
  | none => none
  | some i =>
    match resp.reverse.findIdx? (fun c => c = '}') with
    | none => none
    | some jr =>
      let j := resp.length - 1 - jr
      if i < j then some ((resp.drop i).take (j + 1 - i)) else none

/-- `extract_json`: decode the brace span; any failure (no span, or
`json.loads` raising) yields the empty candidate.  A successfully decoded
`{...}` span is necessarily an object. -/
def extract_json (resp : List Char) : List (List Char × JVal) :=
  match braceSpan resp with
  | none => []
  | some span =>
    match loadsJson span with
    | some (JVal.obj kvs) => kvs
    | _ => []

/-! ## The pipeline: `extract_final` -/

/-- Python `dict` lookup: the last binding of a duplicated key wins. -/
def dictGet (kvs : List (List Char × JVal)) (key : List Char) : Option JVal :=
  (kvs.reverse.find? (fun p => p.1 == key)).map Prod.snd

/-- The pipeline's failure modes.  `backendFailure` stands for the
`requests` connection error / non-success status (`raise_for_status`) /
timeout of `call_ollama`; `attributeError` for calling `.strip()` on a
non-string JSON field value. -/
inductive PipelineError where
  | backendFailure : PipelineError
  | attributeError : PipelineError
deriving DecidableEq

structure FinalRecord where
  recipient_name : List Char
  recipient_address : List Char
deriving DecidableEq

/-- `data.get(key, "").strip()`: a missing key defaults to the empty string;
a present value must be a string for `.strip()` to exist. -/
def getStrField (kvs : List (List Char × JVal)) (key : List Char) :
    Except PipelineError (List Char) :=
  match dictGet kvs key with
  | none => .ok []
  | some (JVal.str s) => .ok (stripL s)
  | some _ => .error .attributeError

/-- `extract_final`.  The model backend is abstracted as a function from the
prompt text (the cleaned OCR text) to either a failure or the raw response
text; everything after the call is the program's own logic. -/
def extract_final (ocr_text : List Char)
    (backend : List Char → Except Unit (List Char)) :
    Except PipelineError FinalRecord :=
  let cleaned := clean_ocr ocr_text
  match backend cleaned with
  | .error _ => .error .backendFailure
  | .ok resp =>
    let data := extract_json resp
    match getStrField data (("recipient_name" : String).data) with
    | .error e => .error e
    | .ok raw_name =>
      match getStrField data (("recipient_address" : String).data) with
      | .error e => .error e
      | .ok raw_addr =>
        let name0 := if raw_name.isEmpty then [] else match_known_name_from_text raw_name
        let name := if name0.isEmpty then match_known_name_from_text ocr_text else name0
        let address := if raw_addr.isEmpty then fallback_address ocr_text else raw_addr
        .ok { recipient_name := name, recipient_address := address }

/-! ## Structure of the best-pair scan -/

/-- The candidate's field is absent or holds a string — exactly the condition
under which Python's `.strip()` exists. -/
def strOrAbsent (kvs : List (List Char × JVal)) (key : List Char) : Prop :=
  match dictGet kvs key with
  | none => True
  | some (JVal.str _) => True
  | some _ => False

/-- The block found by `find_longest_match` fits inside both strings. -/
def flmInv (a b : List Char) (t : Nat × Nat × Nat) : Prop :=
  t.2.2 ≤ a.length - t.1 ∧ t.2.2 ≤ b.length - t.2.1

/-- All (candidate, known-name) pairs in generation order: left-to-right
bigrams, then whitelist order. -/
def resolverPairs (text : List Char) : List (List Char × List Char) :=
  (bigramsOf (wordsOf text)).flatMap (fun c => KNOWN_RECIPIENTS.map (fun r => (c, r)))

/-- The claim's description of the Name Resolver: the first pair achieving
the maximum similarity wins, provided that maximum is at least `0.75`
(a pair scoring exactly `0.75` is included). -/
def resolverSpec (text : List Char) : List Char :=
  let pairs := resolverPairs text
  let mx : ℚ := (pairs.map (fun p => similarity p.1 p.2)).foldl max 0
  if (3 / 4 : ℚ) ≤ mx then
    match pairs.find? (fun p => decide (similarity p.1 p.2 = mx)) with
    | some p => p.2
    | none => []
  else []

/-- One step of the program's scan, over a flattened pair list. -/
def stepF (acc : List Char × Nat × Nat) (p : List Char × List Char) :
    List Char × Nat × Nat :=
  let score := simFrac p.1 p.2
  if acc.2.1 * score.2 < score.1 * acc.2.2 then (p.2, score) else acc

/-- The same step with the scores as rationals. -/
def stepQ (acc : List Char × ℚ) (p : List Char × List Char) : List Char × ℚ :=
  if acc.2 < similarity p.1 p.2 then (p.2, similarity p.1 p.2) else acc

/-- The value of an unreduced fraction. -/
def fracVal (q : Nat × Nat) : ℚ := (q.1 : ℚ) / (q.2 : ℚ)

/-- The correspondence between the program's fraction-valued accumulator and
the rational-valued one. -/
def accRel (accF : List Char × Nat × Nat) (accQ : List Char × ℚ) : Prop :=
  accF.1 = accQ.1 ∧ fracVal accF.2 = accQ.2 ∧ 0 < accF.2.2

/-- `raw_texts`, the four hardcoded test fixtures of the script. -/
def raw_texts : List (List Char) :=
  [("lex2 2.8 lbs, 2821 carradale dr, 95661-4047 roseville, ca, fat1, united states, zoey dong, dsm1, 0503 dsm1, tba132376390000, cycle 1, a sm1" : String).data,
   ("batavia stkllt, special instructiu, metr 4684 3913 8542, g, ca 8206s, 95661, o, 230, 2, paper, fedex, mps 46843913 8553, frun, 2164 n, 9622 00 19 0 000 000 0000 0 00 4684 3913 8553, 8150 sierra college blvd ste, syta saephan, notifil, roseville ca 95661, ground, of 2, 214 787-430o, us, bill sender" : String).data,
   ("ship to, ups ground, 41 lbs, tracking : 1z v4w 195 03 6500 6276, manautr, 2821 carradale dr, ree v0084700946203420100402, etxk-0806:, 0f 1, 1, ky dong, 95661-4047, ref, wi 34.18, 17, nippina, 310 99-085, ca 956 0-01, billing pip, roseville ca, cwtainity" : String).data,
   ("tashayanna mixson, postage fes paid, north gate apartments, notifii llc, 621 42nd st e, williston nd 58801-6810" : String).data]

/-- A model response whose extracted fields are both empty. -/
def modelEmptyResp : List Char :=
  ("\x7b\"recipient_name\": \"\", \"recipient_address\": \"\"\x7d" : String).data

/-- The character left of the occurrence is non-word (or the string edge). -/
def leftOk (prev : Option Char) (pre : List Char) : Prop :=
  match pre.getLast? with
  | some c => wordChar c = false
  | none => bnd prev = true

/-- The character right of the occurrence is non-word (or the string end). -/
def rightOk (post : List Char) : Prop :=
  match post.head? with
  | some c => wordChar c = false
  | none => True

/-- A word-bounded occurrence of a token satisfying `P`. -/
def HasTok (P : List Char → Prop) (prev : Option Char) (s : List Char) : Prop :=
  ∃ pre tok post, P tok ∧ tok ≠ [] ∧ (∀ c ∈ tok, wordChar c = true) ∧
    s = pre ++ tok ++ post ∧ leftOk prev pre ∧ rightOk post

/-- Tokens of the stopword pattern. -/
def PStop (tok : List Char) : Prop := tok ∈ STOPWORDS

/-- Tokens of the `usa` alternative of the country pattern. -/
def PUsa (tok : List Char) : Prop := tok = ("usa" : String).data

/-- Tokens of `\b\d{10,}\b`. -/
def PDigits (tok : List Char) : Prop :=
  10 ≤ tok.length ∧ ∀ c ∈ tok, c.isDigit = true

/-- The call tree of one `scrub` pass: characters are kept one at a time
when the matcher declines, and a matched span is deleted wholesale. -/
inductive Chunks (m : Option Char → List Char → Option Nat) :
    Option Char → List Char → List Char → Prop where
  | nil : ∀ prev, Chunks m prev [] []
  | keep : ∀ prev c cs t, m prev (c :: cs) = none → Chunks m (some c) cs t →
      Chunks m prev (c :: cs) (c :: t)
  | del : ∀ prev s k t, m prev s = some k →
      Chunks m (s.get? (k - 1)) (s.drop k) t → Chunks m prev s t

/-- The shared shape of the four substitution patterns: a match needs a word
boundary on the left, is nonempty and in range, starts and ends with a word
character, and has a word boundary after it. -/
def TokenMatcher (m : Option Char → List Char → Option Nat) : Prop :=
  ∀ prev s k, m prev s = some k →
    bnd prev = true ∧ 0 < k ∧ k ≤ s.length ∧
    (∃ c, s.head? = some c ∧ wordChar c = true) ∧
    (∃ c, s.get? (k - 1) = some c ∧ wordChar c = true) ∧
    bndAfter s k = true

/-- Every whitespace character is a plain space. -/
def spacesOnly (s : List Char) : Bool :=
  s.all fun c => !wsChar c || c = ' '

/-- No two adjacent whitespace characters. -/
def noAdjWs : List Char → Bool
  | [] => true
  | [_] => true
  | a :: b :: rest => !(wsChar a && wsChar b) && noAdjWs (b :: rest)

/-- Neither end of the string is whitespace. -/
def noEdgeWs (s : List Char) : Bool :=
  (match s.head? with | some c => !wsChar c | none => true) &&
  (match s.getLast? with | some c => !wsChar c | none => true)

theorem bestInner_fst (cand : List Char) :
    ∀ (reals : List (List Char)) (acc : List Char × Nat × Nat),
      (bestInner cand reals acc).1 = acc.1 ∨ (bestInner cand reals acc).1 ∈ reals := by
  intro reals
  induction reals with
  | nil => intro acc; exact Or.inl rfl
  | cons r rs ih =>
    intro acc
    simp only [bestInner]
    split
    · rcases ih (r, simFrac cand r) with h | h
      · exact Or.inr (by simp [h])
      · exact Or.inr (List.mem_cons_of_mem _ h)
    · rcases ih acc with h | h
      · exact Or.inl h
      · exact Or.inr (List.mem_cons_of_mem _ h)

theorem bestOuter_fst :
    ∀ (cands : List (List Char)) (acc : List Char × Nat × Nat),
      (bestOuter cands acc).1 = acc.1 ∨ (bestOuter cands acc).1 ∈ KNOWN_RECIPIENTS := by
  intro cands
  induction cands with
  | nil => intro acc; exact Or.inl rfl
  | cons c cs ih =>
    intro acc
    simp only [bestOuter]
    rcases ih (bestInner c KNOWN_RECIPIENTS acc) with h | h
    · rcases bestInner_fst c KNOWN_RECIPIENTS acc with h' | h'
      · exact Or.inl (h.trans h')
      · exact Or.inr (h ▸ h')
    · exact Or.inr h

/-- The Name Resolver returns the empty string or a whitelist element. -/
theorem match_known_mem (t : List Char) :
    match_known_name_from_text t = [] ∨
      match_known_name_from_text t ∈ KNOWN_RECIPIENTS := by
  simp only [match_known_name_from_text]
  split
  · rcases bestOuter_fst (bigramsOf (wordsOf t)) ([], 0, 1) with h | h
    · exact Or.inl h
    · exact Or.inr h
  · exact Or.inl rfl

/-! ## Shape lemmas for `extract_final` -/

theorem extract_final_backend_err {ocr : List Char}
    {backend : List Char → Except Unit (List Char)} {u : Unit}
    (h : backend (clean_ocr ocr) = .error u) :
    extract_final ocr backend = .error .backendFailure := by
  simp only [extract_final, h]

theorem extract_final_ok_eq {ocr resp rawName rawAddr : List Char}
    {backend : List Char → Except Unit (List Char)}
    (hresp : backend (clean_ocr ocr) = .ok resp)
    (hn : getStrField (extract_json resp) (("recipient_name" : String).data) = .ok rawName)
    (ha : getStrField (extract_json resp) (("recipient_address" : String).data) = .ok rawAddr) :
    extract_final ocr backend = .ok
      { recipient_name :=
          if (if rawName.isEmpty then [] else match_known_name_from_text rawName).isEmpty
          then match_known_name_from_text ocr
          else if rawName.isEmpty then [] else match_known_name_from_text rawName,
        recipient_address :=
          if rawAddr.isEmpty then fallback_address ocr else rawAddr } := by
  simp only [extract_final, hresp, hn, ha]

theorem extract_final_name_err {ocr resp : List Char}
    {backend : List Char → Except Unit (List Char)} {e : PipelineError}
    (hresp : backend (clean_ocr ocr) = .ok resp)
    (hn : getStrField (extract_json resp) (("recipient_name" : String).data) = .error e) :
    extract_final ocr backend = .error e := by
  simp only [extract_final, hresp, hn]

theorem extract_final_addr_err {ocr resp rawName : List Char}
    {backend : List Char → Except Unit (List Char)} {e : PipelineError}
    (hresp : backend (clean_ocr ocr) = .ok resp)
    (hn : getStrField (extract_json resp) (("recipient_name" : String).data) = .ok rawName)
    (ha : getStrField (extract_json resp) (("recipient_address" : String).data) = .error e) :
    extract_final ocr backend = .error e := by
  simp only [extract_final, hresp, hn, ha]

/-! ## Claim C1 -/

/-- C1: for every raw OCR input and every model response, the
`recipient_name` of the `FinalRecord` returned by `extract_final` is either
the empty string or exactly an element of the `KNOWN_RECIPIENTS` whitelist;
and the Name Resolver never returns a string outside the whitelist union the
empty string, for any input text. -/
theorem C1_name_whitelisted :
    (∀ text : List Char,
        match_known_name_from_text text = [] ∨
          match_known_name_from_text text ∈ KNOWN_RECIPIENTS) ∧
    ∀ (ocr : List Char) (backend : List Char → Except Unit (List Char))
      (rec : FinalRecord), extract_final ocr backend = .ok rec →
        rec.recipient_name = [] ∨ rec.recipient_name ∈ KNOWN_RECIPIENTS := by
  refine ⟨match_known_mem, ?_⟩
  intro ocr backend rec h
  rcases hb : backend (clean_ocr ocr) with u | resp
  · rw [extract_final_backend_err hb] at h; exact absurd h (by simp)
  rcases hn : getStrField (extract_json resp) (("recipient_name" : String).data) with e | rawName
  · rw [extract_final_name_err hb hn] at h; exact absurd h (by simp)
  rcases ha : getStrField (extract_json resp) (("recipient_address" : String).data) with e | rawAddr
  · rw [extract_final_addr_err hb hn ha] at h; exact absurd h (by simp)
  rw [extract_final_ok_eq hb hn ha] at h
  simp only [Except.ok.injEq] at h
  subst h
  by_cases h0 : (if rawName.isEmpty then ([] : List Char)
      else match_known_name_from_text rawName).isEmpty
  · simp only [h0, if_true]
    exact match_known_mem ocr
  · simp only [h0, if_false]
    by_cases hr : rawName.isEmpty
    · simp [hr] at h0
    · simp only [hr, if_false]
      exact match_known_mem rawName

/-- Witness for C1 at a concrete run: the backend returns no JSON, the name
falls back to the OCR text and lands in the whitelist. -/
theorem C1_witness :
    ("Zoey Dong" : String).data = [] ∨
      ("Zoey Dong" : String).data ∈ KNOWN_RECIPIENTS :=
  C1_name_whitelisted.2 (("zoey dong" : String).data) (fun _ => .ok [])
    { recipient_name := ("Zoey Dong" : String).data, recipient_address := [] }
    (by rfl)

/-! ## Claim C10 -/

/-- C10: an input with fewer than two tokens (maximal lowercase-alphabetic
runs of length ≥ 3 after lower-casing) admits no bigram candidate, and the
Name Resolver returns the empty string. -/
theorem C10_too_few_words :
    ∀ text : List Char, (wordsOf text).length < 2 →
      match_known_name_from_text text = [] := by
  intro text h
  have hb : bigramsOf (wordsOf text) = [] := by
    unfold bigramsOf
    rcases hw : wordsOf text with _ | ⟨w, _ | ⟨w', ws⟩⟩
    · rfl
    · rfl
    · rw [hw] at h; simp at h; omega
  simp only [match_known_name_from_text, hb]
  rfl

/-- Witness for C10: a digits-and-short-words input yields no candidate. -/
theorem C10_witness :
    (wordsOf ("ab7 2821 xy" : String).data).length < 2 ∧
      match_known_name_from_text ("ab7 2821 xy" : String).data = [] :=
  ⟨by decide, C10_too_few_words (("ab7 2821 xy" : String).data) (by decide)⟩

/-! ## Claim C9 -/

/-- C9: if the candidate's name field is empty, or non-empty but fails
Name-Resolver validation, the final name is the Name Resolver applied to the
original raw OCR text; if validation succeeds, the validated name is used. -/
theorem C9_name_fallback_policy :
    ∀ (ocr resp rawName rawAddr : List Char)
      (backend : List Char → Except Unit (List Char)) (rec : FinalRecord),
      backend (clean_ocr ocr) = .ok resp →
      getStrField (extract_json resp) (("recipient_name" : String).data) = .ok rawName →
      getStrField (extract_json resp) (("recipient_address" : String).data) = .ok rawAddr →
      extract_final ocr backend = .ok rec →
      ((rawName = [] ∨ match_known_name_from_text rawName = []) →
        rec.recipient_name = match_known_name_from_text ocr) ∧
      (rawName ≠ [] → match_known_name_from_text rawName ≠ [] →
        rec.recipient_name = match_known_name_from_text rawName) := by
  intro ocr resp rawName rawAddr backend rec hb hn ha h
  rw [extract_final_ok_eq hb hn ha] at h
  simp only [Except.ok.injEq] at h
  subst h
  constructor
  · rintro (h0 | h0)
    · subst h0; simp
    · by_cases hr : rawName.isEmpty
      · simp [hr]
      · simp [hr, h0]
  · intro h1 h2
    have hr : rawName.isEmpty = false := by
      cases rawName with
      | nil => exact absurd rfl h1
      | cons c cs => rfl
    have h2' : (match_known_name_from_text rawName).isEmpty = false := by
      cases hmm : match_known_name_from_text rawName with
      | nil => exact absurd hmm h2
      | cons c cs => rfl
    simp [hr, h2']

/-- Witness for C9: the model's name " Zoey  Dong " validates against the
whitelist and is used directly (the OCR fallback is skipped). -/
theorem C9_witness :
    FinalRecord.recipient_name
        { recipient_name := ("Zoey Dong" : String).data, recipient_address := [] }
      = match_known_name_from_text ((" Zoey  Dong " : String).data) :=
  (C9_name_fallback_policy [] (("\x7b\"recipient_name\": \" Zoey  Dong \"\x7d" : String).data)
      ((" Zoey  Dong " : String).data |>.dropWhile wsChar |>.reverse.dropWhile wsChar |>.reverse)
      [] (fun _ => .ok (("\x7b\"recipient_name\": \" Zoey  Dong \"\x7d" : String).data))
      { recipient_name := ("Zoey Dong" : String).data, recipient_address := [] }
      (by rfl) (by rfl) (by rfl) (by rfl)).2 (by decide) (by decide)

/-! ## Claim C3 -/

/-- Counterexample to C3 as stated: the model provides the non-empty address
`"   "`, yet the final address is the (empty) regex fallback, not that
string: the pipeline strips the model value first. -/
theorem C3_counterexample :
    extract_final []
        (fun _ => .ok (("\x7b\"recipient_address\": \"   \"\x7d" : String).data))
      = .ok { recipient_name := [], recipient_address := [] } ∧
    dictGet (extract_json (("\x7b\"recipient_address\": \"   \"\x7d" : String).data))
        (("recipient_address" : String).data) = some (JVal.str (("   " : String).data)) ∧
    ("   " : String).data ≠ [] :=
  ⟨by rfl, by rfl, by decide⟩

/-- C3 (amended): when the *stripped* model address is non-empty, it is used
verbatim and the regex fallback is not consulted; when it is empty (or the
field is missing), the address is the regex fallback over the raw OCR text
(`fallback_address`: ordered patterns, first match, title-cased, else
empty). -/
theorem C3_address_precedence :
    ∀ (ocr resp rawName rawAddr : List Char)
      (backend : List Char → Except Unit (List Char)) (rec : FinalRecord),
      backend (clean_ocr ocr) = .ok resp →
      getStrField (extract_json resp) (("recipient_name" : String).data) = .ok rawName →
      getStrField (extract_json resp) (("recipient_address" : String).data) = .ok rawAddr →
      extract_final ocr backend = .ok rec →
      (rawAddr ≠ [] → rec.recipient_address = rawAddr) ∧
      (rawAddr = [] → rec.recipient_address = fallback_address ocr) := by
  intro ocr resp rawName rawAddr backend rec hb hn ha h
  rw [extract_final_ok_eq hb hn ha] at h
  simp only [Except.ok.injEq] at h
  subst h
  constructor
  · intro h1
    have hr : rawAddr.isEmpty = false := by
      cases rawAddr with
      | nil => exact absurd rfl h1
      | cons c cs => rfl
    simp [hr]
  · intro h1; subst h1; simp

/-- Witness for C3 at a concrete run: the model address ` 123 main st ` is
stripped and then used verbatim. -/
theorem C3_witness :
    FinalRecord.recipient_address
        { recipient_name := [], recipient_address := ("123 main st" : String).data }
      = ("123 main st" : String).data :=
  (C3_address_precedence []
      (("\x7b\"recipient_address\": \" 123 main st \"\x7d" : String).data)
      [] (("123 main st" : String).data)
      (fun _ => .ok (("\x7b\"recipient_address\": \" 123 main st \"\x7d" : String).data))
      { recipient_name := [], recipient_address := ("123 main st" : String).data }
      (by rfl) (by rfl) (by rfl) (by rfl)).1 (by decide)

/-! ## Claim C2 -/

theorem getStrField_cases (kvs : List (List Char × JVal)) (key : List Char) :
    (strOrAbsent kvs key ∧ ∃ v, getStrField kvs key = .ok v) ∨
      (¬ strOrAbsent kvs key ∧ getStrField kvs key = .error .attributeError) := by
  unfold strOrAbsent getStrField
  rcases dictGet kvs key with _ | v
  · exact Or.inl ⟨trivial, [], rfl⟩
  · cases v with
    | str s => exact Or.inl ⟨trivial, stripL s, rfl⟩
    | null => exact Or.inr ⟨fun h => h, rfl⟩
    | bool b => exact Or.inr ⟨fun h => h, rfl⟩
    | num n => exact Or.inr ⟨fun h => h, rfl⟩
    | arr xs => exact Or.inr ⟨fun h => h, rfl⟩
    | obj kvs' => exact Or.inr ⟨fun h => h, rfl⟩

/-- Counterexample to C2 as stated: a syntactically valid model response
whose `recipient_name` is the number `5` makes the pipeline raise (Python:
`AttributeError` on `int.strip`), although the backend call succeeded. -/
theorem C2_counterexample :
    extract_final []
        (fun _ => .ok (("\x7b\"recipient_name\": 5\x7d" : String).data))
      = .error .attributeError := by rfl

/-- C2 (amended): a backend failure propagates as the only backend error;
for every response whose decoded fields are absent or strings the pipeline
returns a `FinalRecord` (with exactly the two keys); a decoded non-string
field raises an attribute error instead. -/
theorem C2_total_unless_nonstring_field :
    ∀ (ocr : List Char) (backend : List Char → Except Unit (List Char)),
      (∀ u, backend (clean_ocr ocr) = .error u →
        extract_final ocr backend = .error .backendFailure) ∧
      (∀ resp, backend (clean_ocr ocr) = .ok resp →
        (strOrAbsent (extract_json resp) (("recipient_name" : String).data) →
          strOrAbsent (extract_json resp) (("recipient_address" : String).data) →
          ∃ rec : FinalRecord, extract_final ocr backend = .ok rec) ∧
        ((¬ strOrAbsent (extract_json resp) (("recipient_name" : String).data) ∨
          ¬ strOrAbsent (extract_json resp) (("recipient_address" : String).data)) →
          extract_final ocr backend = .error .attributeError)) := by
  intro ocr backend
  refine ⟨fun u hu => extract_final_backend_err hu, fun resp hresp => ⟨?_, ?_⟩⟩
  · intro hsn hsa
    rcases getStrField_cases (extract_json resp) (("recipient_name" : String).data) with
      ⟨_, rawName, hn⟩ | ⟨hbad, _⟩
    · rcases getStrField_cases (extract_json resp) (("recipient_address" : String).data) with
        ⟨_, rawAddr, ha⟩ | ⟨hbad, _⟩
      · exact ⟨_, extract_final_ok_eq hresp hn ha⟩
      · exact absurd hsa hbad
    · exact absurd hsn hbad
  · rintro (hbad | hbad)
    · rcases getStrField_cases (extract_json resp) (("recipient_name" : String).data) with
        ⟨hok, _⟩ | ⟨_, hn⟩
      · exact absurd hok hbad
      · exact extract_final_name_err hresp hn
    · rcases getStrField_cases (extract_json resp) (("recipient_name" : String).data) with
        ⟨_, rawName, hn⟩ | ⟨_, hn⟩
      · rcases getStrField_cases (extract_json resp) (("recipient_address" : String).data) with
          ⟨hok, _⟩ | ⟨_, ha⟩
        · exact absurd hok hbad
        · exact extract_final_addr_err hresp hn ha
      · exact extract_final_name_err hresp hn

/-- Witness for C2: a malformed response (no decodable JSON) still yields a
record, and a failing backend yields the backend error. -/
theorem C2_witness :
    (∃ rec : FinalRecord,
        extract_final [] (fun _ => .ok (("not json at all" : String).data)) = .ok rec) ∧
      extract_final [] (fun _ => .error ()) = .error .backendFailure :=
  ⟨((C2_total_unless_nonstring_field [] (fun _ => .ok (("not json at all" : String).data))).2
      (("not json at all" : String).data) rfl).1 trivial trivial,
   (C2_total_unless_nonstring_field [] (fun _ => .error ())).1 () rfl⟩

/-! ## Claim C8 -/

theorem braceSpan_eq_some_of {resp : List Char} {i j : Nat}
    (hi : resp[i]? = some '{') (hifirst : ∀ i', i' < i → resp[i']? ≠ some '{')
    (hj : resp[j]? = some '}') (hjlast : ∀ j', j < j' → resp[j']? ≠ some '}')
    (hij : i < j) :
    braceSpan resp = some ((resp.drop i).take (j + 1 - i)) := by
  have hilen : i < resp.length := by
    by_contra hc
    rw [List.getElem?_eq_none (Nat.le_of_not_lt hc)] at hi
    exact absurd hi (by simp)
  have hjlen : j < resp.length := by
    by_contra hc
    rw [List.getElem?_eq_none (Nat.le_of_not_lt hc)] at hj
    exact absurd hj (by simp)
  have hfi : resp.findIdx? (fun c => c = '{') = some i := by
    rw [List.findIdx?_eq_some_iff_getElem]
    refine ⟨hilen, by simp [List.getElem?_eq_getElem hilen] at hi; simp [hi], ?_⟩
    intro i' hi'
    have := hifirst i' hi'
    simp only [List.getElem?_eq_getElem (Nat.lt_trans hi' hilen)] at this
    simpa using this
  have hfj : resp.reverse.findIdx? (fun c => c = '}') = some (resp.length - 1 - j) := by
    rw [List.findIdx?_eq_some_iff_getElem]
    have hlt : resp.length - 1 - j < resp.reverse.length := by
      rw [List.length_reverse]; omega
    refine ⟨hlt, ?_, ?_⟩
    · have : resp.reverse[resp.length - 1 - j]? = resp[j]? := by
        rw [List.getElem?_reverse (by rw [List.length_reverse] at hlt; exact hlt)]
        congr 1
        omega
      rw [List.getElem?_eq_getElem hlt] at this
      rw [List.getElem?_eq_getElem hjlen] at this
      simp only [Option.some.injEq] at this
      simp [this, hj]
      rw [List.getElem?_eq_getElem hjlen] at hj
      simpa using hj
    · intro k hk
      have hklen : k < resp.length := by
        have := hlt; rw [List.length_reverse] at this; omega
      have hrev : resp.reverse[k]? = resp[resp.length - 1 - k]? := by
        rw [List.getElem?_reverse hklen]
      have hgt : j < resp.length - 1 - k := by omega
      have := hjlast (resp.length - 1 - k) hgt
      rw [← hrev] at this
      rw [List.getElem?_eq_getElem (by rw [List.length_reverse]; exact hklen)] at this
      simpa using this
  have harith : resp.length - 1 - (resp.length - 1 - j) = j := by omega
  unfold braceSpan
  simp only [hfi, hfj]
  rw [harith, if_pos hij]

/-- C8: the Structured-Response Parser considers the greedy span from the
first `{` to the last `}`; with no such span, or when decoding the span
fails, it yields the empty candidate.  It is a total function of the
response (the Python `except:` swallows every decoding error), so it never
raises to its caller. -/
theorem C8_parser_span_and_failure :
    ∀ resp : List Char,
      ((∀ j : Nat, j < resp.length → ∀ i : Nat, i < j →
          ¬(resp[i]? = some '{' ∧ resp[j]? = some '}')) →
        braceSpan resp = none ∧ extract_json resp = []) ∧
      (∀ i j : Nat, resp[i]? = some '{' → (∀ i', i' < i → resp[i']? ≠ some '{') →
        resp[j]? = some '}' → (∀ j', j < j' → resp[j']? ≠ some '}') → i < j →
        braceSpan resp = some ((resp.drop i).take (j + 1 - i))) ∧
      (∀ sp, braceSpan resp = some sp → loadsJson sp = none →
        extract_json resp = []) := by
  intro resp
  refine ⟨?_, fun i j hi h1 hj h2 hij => braceSpan_eq_some_of hi h1 hj h2 hij, ?_⟩
  · intro h
    have hnone : braceSpan resp = none := by
      unfold braceSpan
      rcases hfi : resp.findIdx? (fun c => c = '{') with _ | i
      · rfl
      rcases hfj : resp.reverse.findIdx? (fun c => c = '}') with _ | jr
      · rfl
      rw [List.findIdx?_eq_some_iff_getElem] at hfi hfj
      rcases hfi with ⟨hilen, hip, _⟩
      rcases hfj with ⟨hjlen', hjp, _⟩
      have hjlen : jr < resp.length := by simpa using hjlen'
      have hij : ¬ (i < resp.length - 1 - jr) := by
        intro hij
        refine h (resp.length - 1 - jr) (by omega) i hij ⟨?_, ?_⟩
        · rw [List.getElem?_eq_getElem hilen]
          simpa using hip
        · have hrj := List.getElem_reverse hjlen'
          rw [List.getElem?_eq_getElem (show resp.length - 1 - jr < resp.length by omega)]
          rw [← hrj]
          simpa using hjp
      simp [hij]
    exact ⟨hnone, by simp only [extract_json, hnone]⟩
  · intro sp hsp hload
    simp only [extract_json, hsp, hload]

/-- Witness for C8: a response with braces in the wrong order has no span;
one with a span of malformed JSON still yields the empty candidate. -/
theorem C8_witness :
    (braceSpan (("\x7d no span \x7b" : String).data) = none ∧
      extract_json (("\x7d no span \x7b" : String).data) = []) ∧
    extract_json (("\x7bmalformed\x7d" : String).data) = [] :=
  ⟨(C8_parser_span_and_failure (("\x7d no span \x7b" : String).data)).1 (by decide),
   (C8_parser_span_and_failure (("\x7bmalformed\x7d" : String).data)).2.2
     (("\x7bmalformed\x7d" : String).data) (by rfl) (by rfl)⟩

/-! ## Bounds on the matcher: `ratio` lands in `[0, 1]` -/

theorem lcp_le_left : ∀ (a b : List Char), lcp a b ≤ a.length := by
  intro a
  induction a with
  | nil => intro b; cases b <;> simp [lcp]
  | cons x xs ih =>
    intro b
    cases b with
    | nil => simp [lcp]
    | cons y ys =>
      simp only [lcp]
      split
      · exact Nat.succ_le_succ (ih ys)
      · exact Nat.zero_le _

theorem lcp_le_right : ∀ (a b : List Char), lcp a b ≤ b.length := by
  intro a
  induction a with
  | nil => intro b; cases b <;> simp [lcp]
  | cons x xs ih =>
    intro b
    cases b with
    | nil => simp [lcp]
    | cons y ys =>
      simp only [lcp]
      split
      · exact Nat.succ_le_succ (ih ys)
      · exact Nat.zero_le _

theorem flmJ_inv (a b : List Char) (i : Nat) :
    ∀ (js : List Nat) (best : Nat × Nat × Nat),
      flmInv a b best → flmInv a b (flmJ a b i js best) := by
  intro js
  induction js with
  | nil => intro best h; exact h
  | cons j js ih =>
    intro best h
    simp only [flmJ]
    split
    · refine ih _ ⟨?_, ?_⟩
      · simpa using lcp_le_left (a.drop i) (b.drop j)
      · simpa using lcp_le_right (a.drop i) (b.drop j)
    · exact ih best h

theorem flmI_inv (a b : List Char) :
    ∀ (is : List Nat) (best : Nat × Nat × Nat),
      flmInv a b best → flmInv a b (flmI a b is best) := by
  intro is
  induction is with
  | nil => intro best h; exact h
  | cons i is ih => intro best h; exact ih _ (flmJ_inv a b i _ best h)

theorem flm_inv (a b : List Char) : flmInv a b (flm a b) :=
  flmI_inv a b _ _ ⟨Nat.zero_le _, Nat.zero_le _⟩

theorem smTotalF_le_min :
    ∀ (fuel : Nat) (a b : List Char),
      smTotalF fuel a b ≤ min a.length b.length := by
  intro fuel
  induction fuel with
  | zero => intro a b; simp [smTotalF]
  | succ fuel ih =>
    intro a b
    rcases hflm : flm a b with ⟨i, j, k⟩
    have hinv := flm_inv a b
    rw [hflm] at hinv
    rcases hinv with ⟨h1, h2⟩
    simp only [smTotalF, hflm]
    split
    · exact Nat.zero_le _
    · have t1 := ih (a.take i) (b.take j)
      have t2 := ih (a.drop (i + k)) (b.drop (j + k))
      simp only [List.length_take, List.length_drop] at t1 t2
      simp only [flmInv] at h1 h2
      omega

theorem smTotal_le_min (a b : List Char) :
    smTotal a b ≤ min a.length b.length :=
  smTotalF_le_min _ a b

theorem ratioQ_nonneg (a b : List Char) : 0 ≤ ratioQ a b := by
  unfold ratioQ
  split
  · norm_num
  · apply div_nonneg <;> positivity

theorem ratioQ_le_one (a b : List Char) : ratioQ a b ≤ 1 := by
  unfold ratioQ
  split
  · norm_num
  · rename_i h
    have hM : 2 * smTotal a b ≤ a.length + b.length := by
      have := smTotal_le_min a b
      omega
    have hpos : (0 : ℚ) < (a.length : ℚ) + (b.length : ℚ) := by
      have h0 : 0 < a.length + b.length := Nat.pos_of_ne_zero h
      exact_mod_cast h0
    rw [div_le_one hpos]
    calc (2 * smTotal a b : ℚ) = ((2 * smTotal a b : ℕ) : ℚ) := by push_cast; ring
    _ ≤ ((a.length + b.length : ℕ) : ℚ) := by exact_mod_cast hM
    _ = (a.length : ℚ) + (b.length : ℚ) := by push_cast; ring

/-! ## Claim C6 -/

/-- Counterexample to C6 as stated: `SequenceMatcher.ratio` is not
symmetric.  The greedy longest-block recursion matches 3 characters of
`"aba"` inside `"babba"` (ratio 3/4) but only 2 in the swapped order
(ratio 1/2) — verified against CPython's `difflib`. -/
theorem C6_counterexample :
    similarity (("aba" : String).data) (("babba" : String).data) ≠
      similarity (("babba" : String).data) (("aba" : String).data) := by
  have e1 : lowerL (("aba" : String).data) = ("aba" : String).data := by decide
  have e2 : lowerL (("babba" : String).data) = ("babba" : String).data := by decide
  have h1 : smTotal (("aba" : String).data) (("babba" : String).data) = 3 := by decide
  have h2 : smTotal (("babba" : String).data) (("aba" : String).data) = 2 := by decide
  have l1 : (("aba" : String).data).length = 3 := by decide
  have l2 : (("babba" : String).data).length = 5 := by decide
  unfold similarity ratioQ
  rw [e1, e2, h1, h2, l1, l2]
  norm_num

/-- C6 (amended): the similarity used by the Name Resolver always yields a
value in `[0, 1]` and is case-insensitive (it depends only on the
lower-casings of its arguments); it is *not* symmetric in general (see the
counterexample). -/
theorem C6_similarity_range_case :
    (∀ a b : List Char, 0 ≤ similarity a b ∧ similarity a b ≤ 1) ∧
    (∀ a a' b b' : List Char, lowerL a = lowerL a' → lowerL b = lowerL b' →
      similarity a b = similarity a' b') := by
  constructor
  · intro a b
    exact ⟨ratioQ_nonneg _ _, ratioQ_le_one _ _⟩
  · intro a a' b b' ha hb
    unfold similarity
    rw [ha, hb]

/-- Witness for C6: the similarity score ignores letter case. -/
theorem C6_witness :
    lowerL (("ZoEy DoNg" : String).data) = lowerL (("zoey dong" : String).data) ∧
      similarity (("ZoEy DoNg" : String).data) (("Zoey Dong" : String).data) =
        similarity (("zoey dong" : String).data) (("Zoey Dong" : String).data) :=
  ⟨by decide,
   C6_similarity_range_case.2 (("ZoEy DoNg" : String).data) (("zoey dong" : String).data)
     (("Zoey Dong" : String).data) (("Zoey Dong" : String).data) (by decide) rfl⟩

/-! ## Claim C4: the scan is the first-argmax selection

The claim describes the resolver as: score every (bigram, known-name) pair
in candidate-generation order, and, when the maximum score is ≥ 0.75, return
the known name of the *first* pair achieving that maximum.  `resolverSpec`
below is that description, written with the real-valued `similarity`;
`C4_resolver_is_first_argmax` proves the program's loop equal to it. -/

theorem bestInner_eq_foldl (cand : List Char) :
    ∀ (reals : List (List Char)) (acc : List Char × Nat × Nat),
      bestInner cand reals acc =
        (reals.map (fun r => (cand, r))).foldl stepF acc := by
  intro reals
  induction reals with
  | nil => intro acc; rfl
  | cons r rs ih =>
    intro acc
    simp only [bestInner, List.map_cons, List.foldl_cons, stepF]
    split
    · exact ih _
    · exact ih _

theorem bestOuter_eq_foldl :
    ∀ (cands : List (List Char)) (acc : List Char × Nat × Nat),
      bestOuter cands acc =
        (cands.flatMap (fun c => KNOWN_RECIPIENTS.map (fun r => (c, r)))).foldl
          stepF acc := by
  intro cands
  induction cands with
  | nil => intro acc; rfl
  | cons c cs ih =>
    intro acc
    simp only [bestOuter, List.flatMap_cons, List.foldl_append]
    rw [ih, bestInner_eq_foldl]

theorem simFrac_val (a b : List Char) :
    fracVal (simFrac a b) = similarity a b ∧ 0 < (simFrac a b).2 := by
  unfold simFrac similarity ratioQ fracVal
  by_cases h : (lowerL a).length + (lowerL b).length = 0
  · simp [h]
  · simp only [if_neg h]
    refine ⟨?_, Nat.pos_of_ne_zero h⟩
    push_cast
    ring

theorem crossLt_iff (p q : Nat × Nat) (hp : 0 < p.2) (hq : 0 < q.2) :
    (p.1 * q.2 < q.1 * p.2) ↔ fracVal p < fracVal q := by
  unfold fracVal
  rw [div_lt_div_iff₀ (by exact_mod_cast hp) (by exact_mod_cast hq)]
  exact_mod_cast Iff.rfl

theorem ge34_iff (p : Nat × Nat) (hp : 0 < p.2) :
    (3 * p.2 ≤ 4 * p.1) ↔ (3 / 4 : ℚ) ≤ fracVal p := by
  unfold fracVal
  rw [div_le_div_iff₀ (by norm_num) (by exact_mod_cast hp)]
  constructor
  · intro h
    have : (3 * p.2 : ℚ) ≤ (4 * p.1 : ℚ) := by exact_mod_cast h
    linarith
  · intro h
    have : (3 * p.2 : ℚ) ≤ (4 * p.1 : ℚ) := by linarith
    exact_mod_cast this

theorem foldl_step_rel :
    ∀ (l : List (List Char × List Char)) (accF : List Char × Nat × Nat)
      (accQ : List Char × ℚ), accRel accF accQ →
      accRel (l.foldl stepF accF) (l.foldl stepQ accQ) := by
  intro l
  induction l with
  | nil => intro accF accQ h; exact h
  | cons p ps ih =>
    intro accF accQ h
    rcases h with ⟨h1, h2, h3⟩
    simp only [List.foldl_cons]
    apply ih
    have hsv := simFrac_val p.1 p.2
    have hcond : (accF.2.1 * (simFrac p.1 p.2).2 < (simFrac p.1 p.2).1 * accF.2.2) ↔
        (accQ.2 < similarity p.1 p.2) := by
      rw [crossLt_iff _ _ h3 hsv.2, h2, hsv.1]
    unfold stepF stepQ
    by_cases hc : accQ.2 < similarity p.1 p.2
    · rw [if_pos (hcond.mpr hc), if_pos hc]
      exact ⟨rfl, hsv.1, hsv.2⟩
    · rw [if_neg (fun hx => hc (hcond.mp hx)), if_neg hc]
      exact ⟨h1, h2, h3⟩

theorem le_foldl_max (f : List Char × List Char → ℚ) :
    ∀ (l : List (List Char × List Char)) (s : ℚ), s ≤ (l.map f).foldl max s := by
  intro l
  induction l with
  | nil => intro s; exact le_refl s
  | cons p ps ih =>
    intro s
    simp only [List.map_cons, List.foldl_cons]
    exact le_trans (le_max_left s (f p)) (ih (max s (f p)))

theorem foldQ_snd (f : List Char × List Char → ℚ)
    (hf : ∀ p, f p = similarity p.1 p.2) :
    ∀ (l : List (List Char × List Char)) (b : List Char) (s : ℚ),
      (l.foldl stepQ (b, s)).2 = (l.map f).foldl max s := by
  intro l
  induction l with
  | nil => intro b s; rfl
  | cons p ps ih =>
    intro b s
    simp only [List.map_cons, List.foldl_cons, stepQ, hf]
    rcases le_or_lt (similarity p.1 p.2) s with h | h
    · rw [if_neg (not_lt.mpr h), max_eq_left h]
      exact ih b s
    · rw [if_pos h, max_eq_right (le_of_lt h)]
      exact ih p.2 (similarity p.1 p.2)

theorem foldQ_fst_stable (f : List Char × List Char → ℚ)
    (hf : ∀ p, f p = similarity p.1 p.2) :
    ∀ (l : List (List Char × List Char)) (b : List Char) (s : ℚ),
      (l.map f).foldl max s = s → (l.foldl stepQ (b, s)).1 = b := by
  intro l
  induction l with
  | nil => intro b s _; rfl
  | cons p ps ih =>
    intro b s hst
    simp only [List.map_cons, List.foldl_cons] at hst
    have hle : max s (f p) ≤ (ps.map f).foldl max (max s (f p)) :=
      le_foldl_max f ps (max s (f p))
    have hmax : max s (f p) = s := by
      have h2 : max s (f p) ≤ s := by
        nth_rewrite 2 [← hst]
        exact hle
      exact le_antisymm h2 (le_max_left _ _)
    have hfp : similarity p.1 p.2 ≤ s := by
      rw [← hf p]
      calc f p ≤ max s (f p) := le_max_right s (f p)
      _ = s := hmax
    simp only [List.foldl_cons, stepQ]
    rw [if_neg (not_lt.mpr hfp)]
    apply ih
    rw [hmax] at hst
    exact hst

theorem foldQ_fst_attained (f : List Char × List Char → ℚ)
    (hf : ∀ p, f p = similarity p.1 p.2) :
    ∀ (l : List (List Char × List Char)) (b : List Char) (s m : ℚ),
      s < m → (l.map f).foldl max s = m →
      ∃ q, l.find? (fun q => decide (f q = m)) = some q ∧
        (l.foldl stepQ (b, s)).1 = q.2 := by
  intro l
  induction l with
  | nil =>
    intro b s m hlt hm
    simp only [List.map_nil, List.foldl_nil] at hm
    exact absurd (hm ▸ hlt) (lt_irrefl s)
  | cons p ps ih =>
    intro b s m hlt hm
    simp only [List.map_cons, List.foldl_cons] at hm
    rcases le_or_lt (f p) s with hle | hgt
    · -- no update at the head
      rw [max_eq_left hle] at hm
      have hhead : ¬ (f p = m) := fun he => absurd (he ▸ hlt) (not_lt.mpr hle)
      rw [List.find?_cons_of_neg _ (by simpa using hhead)]
      simp only [List.foldl_cons, stepQ]
      have hsle : similarity p.1 p.2 ≤ s := by rw [← hf p]; exact hle
      rw [if_neg (not_lt.mpr hsle)]
      exact ih b s m hlt hm
    · -- the head updates the accumulator
      rw [max_eq_right (le_of_lt hgt)] at hm
      have hslt : s < similarity p.1 p.2 := by rw [← hf p]; exact hgt
      by_cases heq : f p = m
      · -- the head attains the maximum; the tail never strictly improves
        refine ⟨p, ?_, ?_⟩
        · rw [List.find?_cons_of_pos _ (by simpa using heq)]
        · simp only [List.foldl_cons, stepQ]
          rw [if_pos hslt, ← hf p]
          exact foldQ_fst_stable f hf ps p.2 (f p) (by nth_rewrite 2 [heq]; exact hm)
      · -- the maximum is attained strictly later
        rw [List.find?_cons_of_neg _ (by simpa using heq)]
        simp only [List.foldl_cons, stepQ]
        rw [if_pos hslt, ← hf p]
        refine ih p.2 (f p) m ?_ hm
        have h2 := le_foldl_max f ps (f p)
        rw [hm] at h2
        exact lt_of_le_of_ne h2 heq

set_option maxHeartbeats 1000000 in
/-- C4: the Name Resolver is exactly the first-argmax selection described by
the spec: pairs are generated left-to-right bigrams then whitelist order,
every pair is scored, and the first pair attaining the maximum score wins
when that maximum is ≥ 0.75 (boundary included); otherwise the result is
empty. -/
theorem C4_resolver_is_first_argmax :
    ∀ text : List Char, match_known_name_from_text text = resolverSpec text := by
  intro text
  have hfold : bestOuter (bigramsOf (wordsOf text)) ([], 0, 1) =
      (resolverPairs text).foldl stepF ([], 0, 1) :=
    bestOuter_eq_foldl _ _
  obtain ⟨r1, r2, r3⟩ := foldl_step_rel (resolverPairs text) ([], 0, 1) ([], 0)
    ⟨rfl, by unfold fracVal; norm_num, Nat.one_pos⟩
  have hsnd := foldQ_snd (fun p => similarity p.1 p.2) (fun _ => rfl)
    (resolverPairs text) [] 0
  simp only [match_known_name_from_text, resolverSpec]
  rw [hfold]
  by_cases hc : (3 / 4 : ℚ) ≤
      ((resolverPairs text).map (fun p => similarity p.1 p.2)).foldl max 0
  · have hcnat : 3 * ((resolverPairs text).foldl stepF ([], 0, 1)).2.2 ≤
        4 * ((resolverPairs text).foldl stepF ([], 0, 1)).2.1 := by
      rw [ge34_iff _ r3, r2, hsnd]
      exact hc
    rw [if_pos hcnat, if_pos hc]
    have hM : (0 : ℚ) <
        ((resolverPairs text).map (fun p => similarity p.1 p.2)).foldl max 0 :=
      lt_of_lt_of_le (by norm_num) hc
    obtain ⟨q, hfind, hfst⟩ := foldQ_fst_attained (fun p => similarity p.1 p.2)
      (fun _ => rfl) (resolverPairs text) [] 0
      (((resolverPairs text).map (fun p => similarity p.1 p.2)).foldl max 0) hM rfl
    rw [hfind, r1, hfst]
  · have hcnat : ¬ (3 * ((resolverPairs text).foldl stepF ([], 0, 1)).2.2 ≤
        4 * ((resolverPairs text).foldl stepF ([], 0, 1)).2.1) := by
      rw [ge34_iff _ r3, r2, hsnd]
      exact hc
    rw [if_neg hcnat, if_neg hc]

/-- Witness for C4 at a concrete text. -/
theorem C4_witness :
    match_known_name_from_text (("ship to zoey dong today" : String).data) =
      resolverSpec (("ship to zoey dong today" : String).data) :=
  C4_resolver_is_first_argmax (("ship to zoey dong today" : String).data)

/-! ## Claim C5: the first fixture -/

set_option maxRecDepth 40000 in
set_option maxHeartbeats 2000000 in
theorem fixture1_name :
    match_known_name_from_text (raw_texts.headD []) = ("Zoey Dong" : String).data := by
  decide

set_option maxRecDepth 40000 in
set_option maxHeartbeats 2000000 in
theorem fixture1_addr : fallback_address (raw_texts.headD []) = [] := by decide

set_option maxRecDepth 40000 in
set_option maxHeartbeats 2000000 in
theorem fixture1_record :
    extract_final (raw_texts.headD []) (fun _ => .ok modelEmptyResp) =
      .ok { recipient_name := ("Zoey Dong" : String).data, recipient_address := [] } := by
  have hb : (fun _ : List Char => (Except.ok modelEmptyResp : Except Unit (List Char)))
      (clean_ocr (raw_texts.headD [])) = .ok modelEmptyResp := rfl
  have hn : getStrField (extract_json modelEmptyResp) (("recipient_name" : String).data)
      = .ok [] := by rfl
  have ha : getStrField (extract_json modelEmptyResp) (("recipient_address" : String).data)
      = .ok [] := by rfl
  rw [extract_final_ok_eq hb hn ha]
  simp only [List.isEmpty_nil, if_true, fixture1_name, fixture1_addr]

/-- Counterexample to C5 as stated: on the first fixture with a model
response whose fields are both empty, the final record's name is indeed
`"Zoey Dong"`, but the address is the *empty* string, not a title-cased
string containing "2821 Carradale Dr" and "95661": neither address regex
matches the fixture, because the street designator is immediately followed
by a comma while the patterns require whitespace after it (and their
character classes do not admit a comma). -/
theorem C5_counterexample :
    extract_final (raw_texts.headD []) (fun _ => .ok modelEmptyResp) =
      .ok { recipient_name := ("Zoey Dong" : String).data, recipient_address := [] } ∧
    fallback_address (raw_texts.headD []) = [] :=
  ⟨fixture1_record, fixture1_addr⟩

/-- C5 (amended): on the first fixture with empty model fields, the name
resolves via the OCR-text fallback to `"Zoey Dong"`, and the address regex
fallback matches nothing, so the final address is empty. -/
theorem C5_fixture1_behaviour :
    (extract_final (raw_texts.headD []) (fun _ => .ok modelEmptyResp)).map
        FinalRecord.recipient_name = .ok (("Zoey Dong" : String).data) ∧
    (extract_final (raw_texts.headD []) (fun _ => .ok modelEmptyResp)).map
        FinalRecord.recipient_address = .ok [] := by
  rw [fixture1_record]
  exact ⟨rfl, rfl⟩

/-! ## Claim C7: word-bounded token occurrences

A `\b token \b` occurrence of a token made of word characters, inside a
string, relative to the character `prev` preceding the string (if any). -/

theorem scrubF_chunks {m : Option Char → List Char → Option Nat}
    (hm : TokenMatcher m) :
    ∀ (fuel : Nat) (prev : Option Char) (s : List Char), s.length ≤ fuel →
      Chunks m prev s (scrubF m fuel prev s) := by
  intro fuel
  induction fuel with
  | zero =>
    intro prev s hs
    have : s = [] := List.length_eq_zero.mp (Nat.le_zero.mp hs)
    subst this
    exact Chunks.nil prev
  | succ fuel ih =>
    intro prev s hs
    match s with
    | [] => exact Chunks.nil prev
    | c :: cs =>
      simp only [scrubF]
      rcases hmk : m prev (c :: cs) with _ | k
      · exact Chunks.keep prev c cs _ hmk
          (ih (some c) cs (by simp only [List.length_cons] at hs; omega))
      · obtain ⟨_, hk0, hklen, _, _, _⟩ := hm prev (c :: cs) k hmk
        refine Chunks.del prev (c :: cs) k _ hmk ?_
        apply ih
        have : ((c :: cs).drop k).length = (c :: cs).length - k := List.length_drop k _
        rw [this]
        have hlen : (c :: cs).length ≤ fuel + 1 := hs
        omega

theorem hasTok_nil {P : List Char → Prop} {prev : Option Char} :
    ¬ HasTok P prev [] := by
  rintro ⟨pre, tok, post, _, hne, _, heq, _, _⟩
  have h1 := List.append_eq_nil.mp heq.symm
  have h2 := List.append_eq_nil.mp h1.1
  exact hne h2.2

/-- An occurrence inside the tail lifts over a kept head character. -/
theorem hasTok_cons_lift {P : List Char → Prop} {c : Char} {cs : List Char}
    (prev : Option Char) (h : HasTok P (some c) cs) : HasTok P prev (c :: cs) := by
  obtain ⟨pre, tok, post, hP, hne, hw, heq, hl, hr⟩ := h
  refine ⟨c :: pre, tok, post, hP, hne, hw, by rw [heq]; rfl, ?_, hr⟩
  unfold leftOk at hl ⊢
  cases pre with
  | nil =>
    simp only [List.getLast?_singleton]
    unfold bnd at hl
    simpa using hl
  | cons p0 pre' =>
    rwa [show ((c :: p0 :: pre').getLast? = (p0 :: pre').getLast?) from rfl]

/-- `leftOk` does not look at `prev` when the prefix is nonempty. -/
theorem leftOk_ne_nil {prev prev' : Option Char} {pre : List Char} (h : pre ≠ []) :
    leftOk prev pre ↔ leftOk prev' pre := by
  unfold leftOk
  rcases hg : pre.getLast? with _ | c
  · exact absurd (List.getLast?_eq_none_iff.mp hg) h
  · exact Iff.rfl

/-- `leftOk` over an extended nonempty prefix. -/
theorem leftOk_append {prev prev' : Option Char} {l pre : List Char} (h : pre ≠ [])
    (hl : leftOk prev pre) : leftOk prev' (l ++ pre) := by
  unfold leftOk at hl ⊢
  rw [List.getLast?_append_of_ne_nil l h]
  rcases hg : pre.getLast? with _ | c
  · exact absurd (List.getLast?_eq_none_iff.mp hg) h
  · rw [hg] at hl
    exact hl

/-- While the previous character is a word character, a scrub pass copies a
leading all-word prefix verbatim, and the character following it keeps its
word-boundary status. -/
theorem chunks_word_prefix {m : Option Char → List Char → Option Nat}
    (hm : TokenMatcher m) :
    ∀ {prev s t}, Chunks m prev s t →
      ∀ c, prev = some c → wordChar c = true →
      ∀ w rest, (∀ x ∈ w, wordChar x = true) → t = w ++ rest → rightOk rest →
      ∃ rest2, s = w ++ rest2 ∧ rightOk rest2 := by
  intro prev s t h
  induction h with
  | nil prev =>
    intro c hc hcw w rest hw ht hr
    have h1 := List.append_eq_nil.mp ht.symm
    refine ⟨[], by rw [h1.1]; rfl, ?_⟩
    unfold rightOk
    simp
  | keep prev c cs t hnone hch ih =>
    intro c0 hc hcw w rest hw ht hr
    cases w with
    | nil =>
      refine ⟨c :: cs, rfl, ?_⟩
      simp only [List.nil_append] at ht
      rw [← ht] at hr
      unfold rightOk at hr ⊢
      exact hr
    | cons w0 w' =>
      simp only [List.cons_append] at ht
      injection ht with h1 h2
      have hw0 : wordChar c = true := h1 ▸ hw w0 (by simp)
      obtain ⟨rest2, hcs, hro⟩ := ih c rfl hw0 w' rest
        (fun x hx => hw x (by simp [hx])) h2 hr
      exact ⟨rest2, by rw [List.cons_append, ← h1, hcs], hro⟩
  | del prev s k t hmk hch ih =>
    intro c hc hcw w rest hw ht hr
    obtain ⟨hbnd, _⟩ := hm prev s k hmk
    rw [hc] at hbnd
    simp [bnd, hcw] at hbnd

/-- When the previous character is a word character, the output of the pass
is empty or starts with the same character as the input. -/
theorem chunks_head {m : Option Char → List Char → Option Nat}
    (hm : TokenMatcher m) :
    ∀ {prev s t}, Chunks m prev s t → bnd prev = false →
      t = [] ∨ (∃ c, t.head? = some c ∧ s.head? = some c) := by
  intro prev s t h hb
  cases h with
  | nil => exact Or.inl rfl
  | keep prev c cs t hnone hch => exact Or.inr ⟨c, rfl, rfl⟩
  | del prev s k t hmk hch =>
    obtain ⟨hbnd, _⟩ := hm prev s k hmk
    rw [hbnd] at hb
    exact absurd hb (by simp)

/-- A scrub pass never creates a word-bounded token occurrence: if the input
has none, the output has none. -/
theorem chunks_preserve {m : Option Char → List Char → Option Nat}
    (hm : TokenMatcher m) (P : List Char → Prop) :
    ∀ {prev s t}, Chunks m prev s t → ¬ HasTok P prev s → ¬ HasTok P prev t := by
  intro prev s t h
  induction h with
  | nil prev => exact fun _ ht => hasTok_nil ht
  | keep prev c cs t hnone hch ih =>
    intro hs hcontra
    obtain ⟨pre, tok, post, hP, hne, hw, heq, hl, hr⟩ := hcontra
    cases pre with
    | nil =>
      cases tok with
      | nil => exact hne rfl
      | cons c0 tok' =>
        simp only [List.nil_append, List.cons_append] at heq
        injection heq with he1 he2
        have hcw : wordChar c = true := he1 ▸ hw c0 (by simp)
        obtain ⟨rest2, hcs, hro⟩ := chunks_word_prefix hm hch c rfl hcw tok' post
          (fun x hx => hw x (by simp [hx])) he2 hr
        apply hs
        exact ⟨[], c0 :: tok', rest2, hP, hne, hw,
          by rw [List.nil_append, List.cons_append, ← he1, hcs], hl, hro⟩
    | cons p0 pre' =>
      simp only [List.cons_append] at heq
      injection heq with he1 he2
      have hocc : HasTok P (some c) t := by
        refine ⟨pre', tok, post, hP, hne, hw, he2, ?_, hr⟩
        cases pre' with
        | nil =>
          unfold leftOk at hl ⊢
          simp only [List.getLast?_singleton] at hl
          simp only [List.getLast?_nil]
          rw [← he1] at hl
          simp [bnd, hl]
        | cons q qre =>
          unfold leftOk at hl ⊢
          rw [List.getLast?_cons_cons] at hl
          exact hl
      exact ih (fun hcs => hs (hasTok_cons_lift prev hcs)) hocc
  | del prev s k t hmk hch ih =>
    intro hs hcontra
    obtain ⟨hbnd, hk0, hklen, hhead, hlast, hafter⟩ := hm prev s k hmk
    obtain ⟨cl, hcl, hclw⟩ := hlast
    obtain ⟨pre, tok, post, hP, hne, hw, heq, hl, hr⟩ := hcontra
    have hprevk : bnd (s.get? (k - 1)) = false := by
      unfold bnd
      rw [hcl]
      simp [hclw]
    cases pre with
    | nil =>
      cases tok with
      | nil => exact hne rfl
      | cons c0 tok' =>
        have hth : t.head? = some c0 := by
          rw [heq]
          rfl
        rcases chunks_head hm hch hprevk with h0 | ⟨c1, hc1t, hc1s⟩
        · rw [h0] at hth
          exact absurd hth (by simp)
        · rw [hth] at hc1t
          injection hc1t with hc10
          have hget : (s.drop k).head? = s.get? k := by
            rw [List.head?_eq_getElem?, List.getElem?_drop, Nat.add_zero,
              List.get?_eq_getElem?]
          rw [hget] at hc1s
          unfold bndAfter at hafter
          rw [hc1s] at hafter
          have hnw : wordChar c1 = false := by simpa using hafter
          have hww : wordChar c0 = true := hw c0 (by simp)
          rw [← hc10] at hnw
          rw [hww] at hnw
          exact absurd hnw (by simp)
    | cons p0 pre' =>
      have hocc : HasTok P (s.get? (k - 1)) t :=
        ⟨p0 :: pre', tok, post, hP, hne, hw, heq,
          (leftOk_ne_nil (by simp)).mp hl, hr⟩
      have hnd : ¬ HasTok P (s.get? (k - 1)) (s.drop k) := by
        rintro ⟨pre2, tok2, post2, hP2, hne2, hw2, heq2, hl2, hr2⟩
        cases pre2 with
        | nil =>
          unfold leftOk at hl2
          simp only [List.getLast?_nil] at hl2
          rw [hprevk] at hl2
          exact absurd hl2 (by simp)
        | cons q0 qre =>
          apply hs
          refine ⟨s.take k ++ q0 :: qre, tok2, post2, hP2, hne2, hw2, ?_, ?_, hr2⟩
          · conv_lhs => rw [(List.take_append_drop k s).symm]
            rw [heq2]
            simp [List.append_assoc]
          · exact leftOk_append (by simp) hl2
      exact ih hnd hocc

/-- A scrub pass removes every word-bounded occurrence of its own pattern's
tokens, provided the matcher fires on every such occurrence (`hmc`). -/
theorem chunks_complete {m : Option Char → List Char → Option Nat}
    (hm : TokenMatcher m) (P : List Char → Prop)
    (hmc : ∀ prev tok post, bnd prev = true → P tok → tok ≠ [] →
      (∀ c ∈ tok, wordChar c = true) → rightOk post → m prev (tok ++ post) ≠ none) :
    ∀ {prev s t}, Chunks m prev s t → ¬ HasTok P prev t := by
  intro prev s t h
  induction h with
  | nil prev => exact hasTok_nil
  | keep prev c cs t hnone hch ih =>
    intro hcontra
    obtain ⟨pre, tok, post, hP, hne, hw, heq, hl, hr⟩ := hcontra
    cases pre with
    | nil =>
      cases tok with
      | nil => exact hne rfl
      | cons c0 tok' =>
        simp only [List.nil_append, List.cons_append] at heq
        injection heq with he1 he2
        have hcw : wordChar c = true := he1 ▸ hw c0 (by simp)
        obtain ⟨rest2, hcs, hro⟩ := chunks_word_prefix hm hch c rfl hcw tok' post
          (fun x hx => hw x (by simp [hx])) he2 hr
        have hb : bnd prev = true := by
          unfold leftOk at hl
          simpa using hl
        refine hmc prev (c0 :: tok') rest2 hb hP hne hw hro ?_
        rw [show ((c0 :: tok') ++ rest2 = c :: cs) from by
          rw [List.cons_append, ← he1, hcs]]
        exact hnone
    | cons p0 pre' =>
      simp only [List.cons_append] at heq
      injection heq with he1 he2
      apply ih
      refine ⟨pre', tok, post, hP, hne, hw, he2, ?_, hr⟩
      cases pre' with
      | nil =>
        unfold leftOk at hl ⊢
        simp only [List.getLast?_singleton] at hl
        simp only [List.getLast?_nil]
        rw [← he1] at hl
        simp [bnd, hl]
      | cons q qre =>
        unfold leftOk at hl ⊢
        rw [List.getLast?_cons_cons] at hl
        exact hl
  | del prev s k t hmk hch ih =>
    intro hcontra
    obtain ⟨hbnd, hk0, hklen, hhead, hlast, hafter⟩ := hm prev s k hmk
    obtain ⟨cl, hcl, hclw⟩ := hlast
    obtain ⟨pre, tok, post, hP, hne, hw, heq, hl, hr⟩ := hcontra
    have hprevk : bnd (s.get? (k - 1)) = false := by
      unfold bnd
      rw [hcl]
      simp [hclw]
    cases pre with
    | nil =>
      cases tok with
      | nil => exact hne rfl
      | cons c0 tok' =>
        have hth : t.head? = some c0 := by
          rw [heq]
          rfl
        rcases chunks_head hm hch hprevk with h0 | ⟨c1, hc1t, hc1s⟩
        · rw [h0] at hth
          exact absurd hth (by simp)
        · rw [hth] at hc1t
          injection hc1t with hc10
          have hget : (s.drop k).head? = s.get? k := by
            rw [List.head?_eq_getElem?, List.getElem?_drop, Nat.add_zero,
              List.get?_eq_getElem?]
          rw [hget] at hc1s
          unfold bndAfter at hafter
          rw [hc1s] at hafter
          have hnw : wordChar c1 = false := by simpa using hafter
          have hww : wordChar c0 = true := hw c0 (by simp)
          rw [← hc10] at hnw
          rw [hww] at hnw
          exact absurd hnw (by simp)
    | cons p0 pre' =>
      apply ih
      exact ⟨p0 :: pre', tok, post, hP, hne, hw, heq,
        (leftOk_ne_nil (by simp)).mp hl, hr⟩

/-! ## The four matchers are token matchers -/

theorem and_eq_true_split {a b : Bool} (h : (a && b) = true) :
    a = true ∧ b = true := by
  rw [Bool.and_eq_true] at h
  exact h

theorem get?_some_mem (l : List Char) (i : Nat) (hi : i < l.length) :
    ∃ c, l.get? i = some c ∧ c ∈ l := by
  rw [List.get?_eq_getElem?]
  exact ⟨l[i], List.getElem?_eq_getElem hi, List.getElem_mem hi⟩

theorem get?_of_isPrefixOf {pfx x : List Char} (h : pfx.isPrefixOf x = true)
    {i : Nat} (hi : i < pfx.length) : x.get? i = pfx.get? i := by
  obtain ⟨t, ht⟩ := List.isPrefixOf_iff_prefix.mp h
  subst ht
  rw [List.get?_eq_getElem?, List.get?_eq_getElem?, List.getElem?_append_left hi]

theorem get?_add_of_drop {s x : List Char} {n : Nat} (h : s.drop n = x) (i : Nat) :
    s.get? (n + i) = x.get? i := by
  rw [List.get?_eq_getElem?, List.get?_eq_getElem?, ← List.getElem?_drop, h]

theorem drop_succ_of_drop_cons {s rest : List Char} {c : Char} {n : Nat}
    (h : s.drop n = c :: rest) : s.drop (n + 1) = rest := by
  have h2 := List.drop_drop 1 n s
  rw [h] at h2
  simpa using h2.symm

theorem takeWhile_length_le (p : Char → Bool) (s : List Char) :
    (s.takeWhile p).length ≤ s.length := by
  conv_rhs => rw [← List.takeWhile_append_dropWhile p s]
  rw [List.length_append]
  omega

theorem head_of_takeWhile_pos {p : Char → Bool} {s : List Char}
    (h : 0 < (s.takeWhile p).length) : ∃ c, s.head? = some c ∧ p c = true := by
  cases s with
  | nil => simp [List.takeWhile_nil] at h
  | cons c cs =>
    rcases hp : p c with _ | _
    · rw [List.takeWhile_cons, hp] at h
      simp at h
    · exact ⟨c, rfl, hp⟩

theorem get_of_takeWhile_lt {p : Char → Bool} {s : List Char} {i : Nat}
    (h : i < (s.takeWhile p).length) : ∃ c, s.get? i = some c ∧ p c = true := by
  obtain ⟨c, hc, hcm⟩ := get?_some_mem (s.takeWhile p) i h
  refine ⟨c, ?_, List.mem_takeWhile_imp hcm⟩
  have hs : s.takeWhile p ++ s.dropWhile p = s := List.takeWhile_append_dropWhile p s
  rw [← hs, List.get?_eq_getElem?, List.getElem?_append_left h, ← List.get?_eq_getElem?]
  exact hc

theorem isDigit_wordChar {c : Char} (h : c.isDigit = true) : wordChar c = true := by
  simp [wordChar, Char.isAlphanum, h]

/-- Facts about a prefix at the head of a string. -/
theorem prefix_props {pfx s : List Char} (h : pfx.isPrefixOf s = true)
    {c0 cl : Char} (h0 : pfx.get? 0 = some c0)
    (hl : pfx.get? (pfx.length - 1) = some cl) :
    pfx.length ≤ s.length ∧ s.head? = some c0 ∧
      s.get? (pfx.length - 1) = some cl := by
  have hlen0 : 0 < pfx.length := by
    by_contra hc
    have : pfx = [] := List.length_eq_zero.mp (by omega)
    rw [this] at h0
    exact absurd h0 (by simp)
  obtain ⟨t, ht⟩ := List.isPrefixOf_iff_prefix.mp h
  refine ⟨by rw [← ht, List.length_append]; omega, ?_, ?_⟩
  · rw [List.head?_eq_getElem?, ← List.get?_eq_getElem?, get?_of_isPrefixOf h hlen0]
    exact h0
  · rw [get?_of_isPrefixOf h (by omega)]
    exact hl

theorem stopword_facts :
    ∀ w ∈ STOPWORDS, 0 < w.length ∧ (∀ c ∈ w, wordChar c = true) := by decide

theorem tokenMatcher_matchStop : TokenMatcher matchStop := by
  intro prev s k h
  unfold matchStop at h
  split at h
  next => exact absurd h (by simp)
  next hnb =>
    have hb : bnd prev = true := by
      rcases hbv : bnd prev with _ | _
      · exact absurd (by simp [hbv]) hnb
      · rfl
    obtain ⟨w, hw_mem, hw_eq⟩ := List.exists_of_findSome?_eq_some h
    split at hw_eq
    next hcond =>
      injection hw_eq with hk
      obtain ⟨hpfx, hba⟩ := and_eq_true_split hcond
      obtain ⟨hlen0, hword⟩ := stopword_facts w hw_mem
      obtain ⟨ch, hch, hchm⟩ := get?_some_mem w 0 hlen0
      obtain ⟨cl, hcl, hclm⟩ := get?_some_mem w (w.length - 1) (by omega)
      obtain ⟨hle, hh, hl⟩ := prefix_props hpfx hch hcl
      subst hk
      exact ⟨hb, hlen0, hle, ⟨ch, hh, hword ch hchm⟩, ⟨cl, hl, hword cl hclm⟩, hba⟩
    next => exact absurd hw_eq (by simp)

theorem tokenMatcher_matchCountry : TokenMatcher matchCountry := by
  intro prev s k h
  unfold matchCountry at h
  split at h
  next => exact absurd h (by simp)
  next hnb =>
    have hb : bnd prev = true := by
      rcases hbv : bnd prev with _ | _
      · exact absurd (by simp [hbv]) hnb
      · rfl
    split at h
    next h1 =>
      injection h with hk
      obtain ⟨hpfx, hba⟩ := and_eq_true_split h1
      obtain ⟨hle, hh, hl⟩ := prefix_props hpfx
        (show (("united states" : String).data).get? 0 = some 'u' from by decide)
        (show (("united states" : String).data).get?
          ((("united states" : String).data).length - 1) = some 's' from by decide)
      subst hk
      refine ⟨hb, by omega, ?_, ⟨'u', hh, by decide⟩, ⟨'s', ?_, by decide⟩, hba⟩
      · have h13 : (("united states" : String).data).length = 13 := by decide
        omega
      · rw [show ((13 : Nat) - 1) = (("united states" : String).data).length - 1
          from by decide]
        exact hl
    next h1 =>
      split at h
      next h2 =>
        injection h with hk
        obtain ⟨hpfx, hba⟩ := and_eq_true_split h2
        obtain ⟨hle, hh, hl⟩ := prefix_props hpfx
          (show (("usa" : String).data).get? 0 = some 'u' from by decide)
          (show (("usa" : String).data).get?
            ((("usa" : String).data).length - 1) = some 'a' from by decide)
        subst hk
        refine ⟨hb, by omega, ?_, ⟨'u', hh, by decide⟩, ⟨'a', ?_, by decide⟩, hba⟩
        · have h3 : (("usa" : String).data).length = 3 := by decide
          omega
        · rw [show ((3 : Nat) - 1) = (("usa" : String).data).length - 1 from by decide]
          exact hl
      next => exact absurd h (by simp)

theorem tokenMatcher_matchDigits : TokenMatcher matchDigits := by
  intro prev s k h
  simp only [matchDigits] at h
  split at h
  next => exact absurd h (by simp)
  next hnb =>
    have hb : bnd prev = true := by
      rcases hbv : bnd prev with _ | _
      · exact absurd (by simp [hbv]) hnb
      · rfl
    split at h
    next hcond =>
      injection h with hk
      obtain ⟨hd10b, hba⟩ := and_eq_true_split hcond
      have hd10 : 10 ≤ (s.takeWhile Char.isDigit).length := by
        simpa using hd10b
      obtain ⟨ch, hch, hchd⟩ := head_of_takeWhile_pos
        (show 0 < (s.takeWhile Char.isDigit).length by omega)
      obtain ⟨cl, hcl, hcld⟩ := get_of_takeWhile_lt
        (show (s.takeWhile Char.isDigit).length - 1 <
          (s.takeWhile Char.isDigit).length by omega)
      subst hk
      exact ⟨hb, by omega, takeWhile_length_le _ _,
        ⟨ch, hch, isDigit_wordChar hchd⟩, ⟨cl, hcl, isDigit_wordChar hcld⟩, hba⟩
    next => exact absurd h (by simp)

theorem tokenMatcher_matchWeight : TokenMatcher matchWeight := by
  intro prev s k h
  simp only [matchWeight] at h
  split at h
  next => exact absurd h (by simp)
  next hnb =>
    have hb : bnd prev = true := by
      rcases hbv : bnd prev with _ | _
      · exact absurd (by simp [hbv]) hnb
      · rfl
    split at h
    next => exact absurd h (by simp)
    next hd0 =>
      have hdpos : 0 < (s.takeWhile Char.isDigit).length := Nat.pos_of_ne_zero hd0
      obtain ⟨ch, hch, hchd⟩ := head_of_takeWhile_pos (p := Char.isDigit) hdpos
      split at h
      next c rest hdropk =>
        have hlen1 := congrArg List.length hdropk
        rw [List.length_drop] at hlen1
        simp only [List.length_cons] at hlen1
        split at h
        next hws =>
          -- a single whitespace character is consumed before "lbs"
          split at h
          next hcond =>
            injection h with hk
            obtain ⟨hpfx, hba⟩ := and_eq_true_split hcond
            have hlen2 := List.IsPrefix.length_le (List.isPrefixOf_iff_prefix.mp hpfx)
            norm_num at hlen2
            have hdrop1 := drop_succ_of_drop_cons hdropk
            subst hk
            refine ⟨hb, by omega, by omega,
              ⟨ch, hch, isDigit_wordChar hchd⟩, ⟨'s', ?_, by decide⟩, hba⟩
            rw [show (4 : Nat) = 3 + 1 from rfl, ← Nat.add_assoc, Nat.add_sub_cancel]
            rw [get?_add_of_drop hdropk 3]
            show (c :: rest).get? (2 + 1) = some 's'
            rw [List.get?_cons_succ, get?_of_isPrefixOf hpfx (by decide)]
            rfl
          next => exact absurd h (by simp)
        next hws =>
          -- "lbs" follows the number directly
          split at h
          next hcond =>
            injection h with hk
            obtain ⟨hpfx, hba⟩ := and_eq_true_split hcond
            have hlen2 := List.IsPrefix.length_le (List.isPrefixOf_iff_prefix.mp hpfx)
            simp only [List.length_cons, List.length_nil] at hlen2
            subst hk
            refine ⟨hb, by omega, by omega,
              ⟨ch, hch, isDigit_wordChar hchd⟩, ⟨'s', ?_, by decide⟩, hba⟩
            rw [show (3 : Nat) = 2 + 1 from rfl, ← Nat.add_assoc, Nat.add_sub_cancel]
            rw [get?_add_of_drop hdropk 2,
              get?_of_isPrefixOf hpfx (by decide)]
            rfl
          next => exact absurd h (by simp)
      next hdropnil => exact absurd h (by simp)

/-! ## The matchers fire on their own tokens (completeness) -/

theorem rightOk_head {post : List Char} {c : Char} (hr : rightOk post)
    (hh : post.head? = some c) : wordChar c = false := by
  unfold rightOk at hr
  rw [hh] at hr
  exact hr

theorem bndAfter_append_tok {tok post : List Char} (hr : rightOk post) :
    bndAfter (tok ++ post) tok.length = true := by
  unfold bndAfter
  rw [List.get?_eq_getElem?, List.getElem?_append_right (Nat.le_refl _), Nat.sub_self,
    ← List.head?_eq_getElem?]
  rcases hh : post.head? with _ | c
  · rfl
  · show (!wordChar c) = true
    rw [rightOk_head hr hh]
    rfl

theorem takeWhile_append_eq {p : Char → Bool} {post : List Char}
    (hpost : ∀ c, post.head? = some c → p c = false) :
    ∀ tok : List Char, (∀ c ∈ tok, p c = true) →
      (tok ++ post).takeWhile p = tok := by
  intro tok
  induction tok with
  | nil =>
    intro _
    simp only [List.nil_append]
    cases post with
    | nil => rfl
    | cons c cs =>
      have hc := hpost c rfl
      simp [List.takeWhile_cons, hc]
  | cons c cs ih =>
    intro htok
    have h1 : p c = true := htok c (by simp)
    have h2 := ih fun x hx => htok x (by simp [hx])
    simp [List.takeWhile_cons, h1, h2]

theorem matchStop_fires (prev : Option Char) (tok post : List Char)
    (hb : bnd prev = true) (hP : PStop tok) (_ : tok ≠ [])
    (_ : ∀ c ∈ tok, wordChar c = true) (hr : rightOk post) :
    matchStop prev (tok ++ post) ≠ none := by
  intro hnone
  unfold matchStop at hnone
  rw [if_neg (by simp [hb])] at hnone
  rw [List.findSome?_eq_none_iff] at hnone
  have h1 := hnone tok hP
  have hcond : (tok.isPrefixOf (tok ++ post) &&
      bndAfter (tok ++ post) tok.length) = true := by
    rw [Bool.and_eq_true]
    exact ⟨List.isPrefixOf_iff_prefix.mpr ⟨post, rfl⟩, bndAfter_append_tok hr⟩
  rw [if_pos hcond] at h1
  exact absurd h1 (by simp)

theorem matchCountry_fires_usa (prev : Option Char) (tok post : List Char)
    (hb : bnd prev = true) (hP : PUsa tok) (_ : tok ≠ [])
    (_ : ∀ c ∈ tok, wordChar c = true) (hr : rightOk post) :
    matchCountry prev (tok ++ post) ≠ none := by
  unfold PUsa at hP
  subst hP
  intro hnone
  unfold matchCountry at hnone
  rw [if_neg (by simp [hb])] at hnone
  by_cases h1 : (("united states" : String).data.isPrefixOf
      (("usa" : String).data ++ post) &&
      bndAfter (("usa" : String).data ++ post) 13) = true
  · rw [if_pos h1] at hnone
    exact absurd hnone (by simp)
  · rw [if_neg h1] at hnone
    have hcond : (("usa" : String).data.isPrefixOf (("usa" : String).data ++ post) &&
        bndAfter (("usa" : String).data ++ post) 3) = true := by
      rw [Bool.and_eq_true]
      refine ⟨List.isPrefixOf_iff_prefix.mpr ⟨post, rfl⟩, ?_⟩
      rw [show (3 : Nat) = (("usa" : String).data).length from by decide]
      exact bndAfter_append_tok hr
    rw [if_pos hcond] at hnone
    exact absurd hnone (by simp)

theorem matchDigits_fires (prev : Option Char) (tok post : List Char)
    (hb : bnd prev = true) (hP : PDigits tok) (_ : tok ≠ [])
    (_ : ∀ c ∈ tok, wordChar c = true) (hr : rightOk post) :
    matchDigits prev (tok ++ post) ≠ none := by
  obtain ⟨h10, hdig⟩ := hP
  intro hnone
  simp only [matchDigits] at hnone
  rw [if_neg (by simp [hb])] at hnone
  have htw : ((tok ++ post).takeWhile Char.isDigit) = tok := by
    refine takeWhile_append_eq ?_ tok hdig
    intro c hc
    have hcw := rightOk_head hr hc
    rcases hd : c.isDigit with _ | _
    · rfl
    · rw [isDigit_wordChar hd] at hcw
      exact absurd hcw (by simp)
  rw [htw] at hnone
  have hcond : ((decide (10 ≤ tok.length)) &&
      bndAfter (tok ++ post) tok.length) = true := by
    rw [Bool.and_eq_true]
    exact ⟨by simpa using h10, bndAfter_append_tok hr⟩
  rw [if_pos hcond] at hnone
  exact absurd hnone (by simp)

/-! ## Whitespace normal form -/

theorem ws_not_word {c : Char} (h : wsChar c = true) : wordChar c = false := by
  have h2 := h
  simp only [wsChar, Bool.or_eq_true, decide_eq_true_eq] at h2
  rcases h2 with ((((rfl | rfl) | rfl) | rfl) | rfl) | rfl <;> decide

theorem char_not_upper_of_toNat {d : Char} (hd : d.toNat < 65 ∨ 90 < d.toNat) :
    d.isUpper = false := by
  have h3 : d.toNat = d.val.toBitVec.toNat := rfl
  rcases hd with hd | hd
  · have h1 : ¬((65 : UInt32) ≤ d.val) := by
      rw [UInt32.le_def, BitVec.le_def]
      have h2 : (65 : UInt32).toBitVec.toNat = 65 := by decide
      rw [h2]
      omega
    simp [Char.isUpper, ge_iff_le, h1]
  · have h1 : ¬(d.val ≤ (90 : UInt32)) := by
      rw [UInt32.le_def, BitVec.le_def]
      have h2 : (90 : UInt32).toBitVec.toNat = 90 := by decide
      rw [h2]
      omega
    simp [Char.isUpper, ge_iff_le, h1]

theorem toLower_isUpper_false (c : Char) : (c.toLower).isUpper = false := by
  simp only [Char.toLower]
  split
  next h =>
    apply char_not_upper_of_toNat
    right
    have hv : (c.toNat + 32).isValidChar := Or.inl (by omega)
    have ht : (Char.ofNat (c.toNat + 32)).toNat = c.toNat + 32 := by
      unfold Char.ofNat
      rw [dif_pos hv]
      rfl
    rw [ht]
    omega
  next h =>
    apply char_not_upper_of_toNat
    rcases Nat.lt_or_ge 90 c.toNat with h90 | h90
    · exact Or.inr h90
    · refine Or.inl ?_
      by_contra hc
      exact h ⟨by omega, h90⟩

/-- A scrub pass only deletes characters. -/
theorem chunks_sublist {m : Option Char → List Char → Option Nat} :
    ∀ {prev s t}, Chunks m prev s t → t.Sublist s := by
  intro prev s t h
  induction h with
  | nil prev => exact List.Sublist.refl []
  | keep prev c cs t hnone hch ih => exact List.Sublist.cons₂ c ih
  | del prev s k t hmk hch ih => exact ih.trans (List.drop_sublist k s)

theorem scrub_sublist {m : Option Char → List Char → Option Nat}
    (hm : TokenMatcher m) (s : List Char) : (scrub m s).Sublist s :=
  chunks_sublist (scrubF_chunks hm s.length none s (Nat.le_refl _))

/-- Characters of the collapsed string. -/
theorem collapse_mem : ∀ (s : List Char), ∀ c ∈ collapseWs s, c = ' ' ∨ c ∈ s := by
  intro s
  induction s with
  | nil => intro c hc; exact absurd hc (by simp [collapseWs])
  | cons a tail ih =>
    cases tail with
    | nil =>
      intro c hc
      simp only [collapseWs] at hc
      by_cases hwa : wsChar a = true
      · rw [if_pos hwa] at hc
        exact Or.inl (by simpa using hc)
      · rw [if_neg hwa] at hc
        exact Or.inr (by simpa using hc)
    | cons b rest =>
      intro c hc
      simp only [collapseWs] at hc
      by_cases hab : (wsChar a && wsChar b) = true
      · rw [if_pos hab] at hc
        rcases ih c hc with h | h
        · exact Or.inl h
        · exact Or.inr (by simp [h])
      · rw [if_neg hab] at hc
        rcases List.mem_cons.mp hc with h1 | h1
        · by_cases hwa : wsChar a = true
          · rw [if_pos hwa] at h1
            exact Or.inl h1
          · rw [if_neg hwa] at h1
            exact Or.inr (by simp [h1])
        · rcases ih c h1 with h | h
          · exact Or.inl h
          · exact Or.inr (by simp [h])

/-- Whitespace surviving collapse is a plain space. -/
theorem collapse_ws_space :
    ∀ (s : List Char), ∀ c ∈ collapseWs s, wsChar c = true → c = ' ' := by
  intro s
  induction s with
  | nil => intro c hc; exact absurd hc (by simp [collapseWs])
  | cons a tail ih =>
    cases tail with
    | nil =>
      intro c hc hw
      simp only [collapseWs] at hc
      by_cases hwa : wsChar a = true
      · rw [if_pos hwa] at hc
        simpa using hc
      · rw [if_neg hwa] at hc
        have h1 : c = a := by simpa using hc
        subst h1
        exact absurd hw hwa
    | cons b rest =>
      intro c hc hw
      simp only [collapseWs] at hc
      by_cases hab : (wsChar a && wsChar b) = true
      · rw [if_pos hab] at hc
        exact ih c hc hw
      · rw [if_neg hab] at hc
        rcases List.mem_cons.mp hc with h1 | h1
        · by_cases hwa : wsChar a = true
          · rw [if_pos hwa] at h1
            exact h1
          · rw [if_neg hwa] at h1
            subst h1
            exact absurd hw hwa
        · exact ih c h1 hw

theorem stripL_mem {s : List Char} : ∀ c ∈ stripL s, c ∈ s := by
  intro c hc
  unfold stripL at hc
  rw [List.mem_reverse] at hc
  have hc2 := (List.dropWhile_suffix wsChar).sublist.subset hc
  rw [List.mem_reverse] at hc2
  exact (List.dropWhile_suffix wsChar).sublist.subset hc2

theorem head_dropWhile_false (p : Char → Bool) :
    ∀ (l : List Char) (c : Char), (l.dropWhile p).head? = some c → p c = false := by
  intro l
  induction l with
  | nil => intro c hc; exact absurd hc (by simp)
  | cons a t ih =>
    intro c hc
    rw [List.dropWhile_cons] at hc
    by_cases hp : p a = true
    · rw [if_pos hp] at hc
      exact ih c hc
    · rw [if_neg hp] at hc
      simp only [List.head?_cons] at hc
      injection hc with hc'
      rw [← hc']
      rw [Bool.not_eq_true] at hp
      exact hp

theorem stripL_last_not_ws {s : List Char} {c : Char}
    (h : (stripL s).getLast? = some c) : wsChar c = false := by
  unfold stripL at h
  rw [List.getLast?_reverse] at h
  exact head_dropWhile_false wsChar _ c h

theorem stripL_head_not_ws {s : List Char} {c : Char}
    (h : (stripL s).head? = some c) : wsChar c = false := by
  unfold stripL at h
  obtain ⟨t, ht⟩ := List.dropWhile_suffix (l := (s.dropWhile wsChar).reverse) wsChar
  have hA : s.dropWhile wsChar =
      ((s.dropWhile wsChar).reverse.dropWhile wsChar).reverse ++ t.reverse := by
    have h2 := congrArg List.reverse ht
    rw [List.reverse_append, List.reverse_reverse] at h2
    exact h2.symm
  apply head_dropWhile_false wsChar s c
  rw [hA]
  rcases hx : ((s.dropWhile wsChar).reverse.dropWhile wsChar).reverse with _ | ⟨c₀, cs⟩
  · rw [hx] at h
    exact absurd h (by simp)
  · rw [hx] at h
    exact h

/-! ## Collapse and strip never create word-bounded token occurrences -/

theorem hasTok_single_nonword {P : List Char → Prop} {q : Option Char} {c : Char}
    (hc : wordChar c = false) : ¬ HasTok P q [c] := by
  rintro ⟨pre, tok, post, hP, hne, hw, heq, hl, hr⟩
  cases pre with
  | nil =>
    cases tok with
    | nil => exact hne rfl
    | cons t ts =>
      simp only [List.nil_append, List.cons_append] at heq
      injection heq with h1 h2
      rw [h1] at hc
      rw [hw t (by simp)] at hc
      exact absurd hc (by simp)
  | cons p₀ pre' =>
    simp only [List.cons_append] at heq
    injection heq with h1 h2
    have h3 := List.append_eq_nil.mp h2.symm
    have h4 := List.append_eq_nil.mp h3.1
    exact hne h4.2

theorem hasTok_strengthen {P : List Char → Prop} {q p' : Option Char} {L : List Char}
    (hb : bnd p' = true) : HasTok P q L → HasTok P p' L := by
  rintro ⟨pre, tok, post, hP, hne, hw, heq, hl, hr⟩
  refine ⟨pre, tok, post, hP, hne, hw, heq, ?_, hr⟩
  cases pre with
  | nil => exact hb
  | cons x xs => exact (leftOk_ne_nil (by simp)).mp hl

theorem hasTok_bnd_congr {P : List Char → Prop} {p q : Option Char} {L : List Char}
    (h : bnd p = bnd q) : HasTok P q L → HasTok P p L := by
  rintro ⟨pre, tok, post, hP, hne, hw, heq, hl, hr⟩
  refine ⟨pre, tok, post, hP, hne, hw, heq, ?_, hr⟩
  cases pre with
  | nil =>
    have hq : bnd q = true := hl
    show bnd p = true
    rw [h]
    exact hq
  | cons x xs => exact (leftOk_ne_nil (by simp)).mp hl

/-- A whitespace-headed string collapses to a space-headed string. -/
theorem collapse_head_ws :
    ∀ (tail : List Char) (a : Char), wsChar a = true →
      (collapseWs (a :: tail)).head? = some ' ' := by
  intro tail
  induction tail with
  | nil =>
    intro a ha
    simp only [collapseWs]
    rw [if_pos ha]
    rfl
  | cons b rest ih =>
    intro a ha
    simp only [collapseWs]
    by_cases hb : wsChar b = true
    · rw [if_pos (by rw [ha, hb]; rfl)]
      exact ih b hb
    · rw [if_neg (by rw [ha]; simpa using hb)]
      rw [if_pos ha]
      rfl

/-- A non-whitespace head survives collapse as the head. -/
theorem collapse_head_nonws (b : Char) (rest : List Char) (hb : wsChar b = false) :
    (collapseWs (b :: rest)).head? = some b := by
  cases rest with
  | nil =>
    simp only [collapseWs]
    rw [if_neg (by rw [hb]; simp)]
    rfl
  | cons r rs =>
    simp only [collapseWs]
    rw [if_neg (by rw [hb]; simp)]
    rw [if_neg (by rw [hb]; simp)]
    rfl

/-- If the collapsed string starts with a word-character block followed by a
word boundary, so does the original string. -/
theorem collapse_word_run :
    ∀ (s w rest2 : List Char), (∀ x ∈ w, wordChar x = true) →
      collapseWs s = w ++ rest2 → rightOk rest2 →
      ∃ rest3, s = w ++ rest3 ∧ rightOk rest3 := by
  intro s
  induction s with
  | nil =>
    intro w rest2 hw heq hr
    simp only [collapseWs] at heq
    have h1 := List.append_eq_nil.mp heq.symm
    refine ⟨[], ?_, trivial⟩
    rw [h1.1]
    rfl
  | cons a tail ih =>
    intro w rest2 hw heq hr
    cases tail with
    | nil =>
      by_cases hwa : wsChar a = true
      · rw [show collapseWs [a] = [' '] from by simp [collapseWs, hwa]] at heq
        cases w with
        | nil => exact ⟨[a], rfl, ws_not_word hwa⟩
        | cons w₀ w' =>
          simp only [List.cons_append] at heq
          injection heq with h1 h2
          have h3 := hw w₀ (by simp)
          rw [← h1] at h3
          exact absurd h3 (by decide)
      · rw [show collapseWs [a] = [a] from by simp [collapseWs, hwa]] at heq
        exact ⟨rest2, heq, hr⟩
    | cons b rest =>
      by_cases hab : (wsChar a && wsChar b) = true
      · have ha : wsChar a = true := (and_eq_true_split hab).1
        cases w with
        | nil => exact ⟨a :: b :: rest, rfl, ws_not_word ha⟩
        | cons w₀ w' =>
          have hh := collapse_head_ws (b :: rest) a ha
          rw [heq] at hh
          simp only [List.cons_append, List.head?_cons] at hh
          injection hh with hh'
          have h3 := hw w₀ (by simp)
          rw [hh'] at h3
          exact absurd h3 (by decide)
      · simp only [collapseWs] at heq
        rw [if_neg hab] at heq
        cases w with
        | nil =>
          simp only [List.nil_append] at heq
          rw [← heq] at hr
          have hfw : wordChar a = false := by
            by_cases hwa : wsChar a = true
            · exact ws_not_word hwa
            · rw [if_neg hwa] at hr
              exact hr
          exact ⟨a :: b :: rest, rfl, hfw⟩
        | cons w₀ w' =>
          simp only [List.cons_append] at heq
          injection heq with h1 h2
          have hword₀ := hw w₀ (by simp)
          have hwa : wsChar a = false := by
            rcases hwa' : wsChar a with _ | _
            · rfl
            · rw [if_pos hwa'] at h1
              rw [← h1] at hword₀
              exact absurd hword₀ (by decide)
          rw [hwa] at h1
          simp only [Bool.false_eq_true, if_false] at h1
          obtain ⟨rest3, hs3, hr3⟩ := ih w' rest2 (fun x hx => hw x (by simp [hx])) h2 hr
          refine ⟨rest3, ?_, hr3⟩
          rw [List.cons_append, ← h1, hs3]

/-- Collapsing whitespace never creates a word-bounded token occurrence. -/
theorem collapse_preserve {P : List Char → Prop} :
    ∀ (s : List Char) (p q : Option Char), bnd p = bnd q →
      HasTok P q (collapseWs s) → HasTok P p s := by
  intro s
  induction s with
  | nil =>
    intro p q hpq hout
    simp only [collapseWs] at hout
    exact absurd hout hasTok_nil
  | cons a tail ih =>
    intro p q hpq hout
    cases tail with
    | nil =>
      by_cases hwa : wsChar a = true
      · rw [show collapseWs [a] = [' '] from by simp [collapseWs, hwa]] at hout
        exact absurd hout (hasTok_single_nonword (by decide))
      · rw [show collapseWs [a] = [a] from by simp [collapseWs, hwa]] at hout
        exact hasTok_bnd_congr hpq hout
    | cons b rest =>
      by_cases hab : (wsChar a && wsChar b) = true
      · rw [show collapseWs (a :: b :: rest) = collapseWs (b :: rest) from by
          simp only [collapseWs]; rw [if_pos hab]] at hout
        have ha : wsChar a = true := (and_eq_true_split hab).1
        have h2 := hasTok_strengthen
          (show bnd (some a) = true from by
            show (!wordChar a) = true
            rw [ws_not_word ha]
            rfl) hout
        exact hasTok_cons_lift p (ih (some a) (some a) rfl h2)
      · rw [show collapseWs (a :: b :: rest) =
            (if wsChar a then ' ' else a) :: collapseWs (b :: rest) from by
          simp only [collapseWs]; rw [if_neg hab]] at hout
        obtain ⟨pre, tok, post, hP, hne, hw, heq, hl, hr⟩ := hout
        cases pre with
        | nil =>
          have hbq : bnd q = true := hl
          simp only [List.nil_append] at heq
          obtain ⟨rest3, hs3, hr3⟩ := collapse_word_run (a :: b :: rest) tok post hw
            (by rw [show collapseWs (a :: b :: rest) =
                (if wsChar a then ' ' else a) :: collapseWs (b :: rest) from by
              simp only [collapseWs]; rw [if_neg hab]]; exact heq) hr
          refine ⟨[], tok, rest3, hP, hne, hw, by rw [hs3]; rfl, ?_, hr3⟩
          show bnd p = true
          rw [hpq]
          exact hbq
        | cons p₀ pre' =>
          simp only [List.cons_append] at heq
          injection heq with hc₀ ht
          have hword_eq : wordChar (if wsChar a then ' ' else a) = wordChar a := by
            by_cases hwa : wsChar a = true
            · rw [if_pos hwa, ws_not_word hwa]
              rfl
            · rw [if_neg hwa]
          have hl' : leftOk (some p₀) pre' := by
            cases pre' with
            | nil =>
              show bnd (some p₀) = true
              have h5 : wordChar p₀ = false := hl
              show (!wordChar p₀) = true
              rw [h5]
              rfl
            | cons y ys =>
              have hl2 : leftOk q (y :: ys) := by
                unfold leftOk at hl ⊢
                rwa [List.getLast?_cons_cons] at hl
              exact (leftOk_ne_nil (by simp)).mp hl2
          have hocc : HasTok P (some p₀) (collapseWs (b :: rest)) :=
            ⟨pre', tok, post, hP, hne, hw, ht, hl', hr⟩
          have hbndeq : bnd (some a) = bnd (some p₀) := by
            show (!wordChar a) = (!wordChar p₀)
            rw [← hc₀, hword_eq]
          exact hasTok_cons_lift p (ih (some a) (some p₀) hbndeq hocc)

/-- The strip decomposition: whitespace affixes around the stripped core. -/
theorem strip_decomp (s : List Char) :
    ∃ u v, s = u ++ stripL s ++ v ∧ (∀ c ∈ u, wsChar c = true) ∧
      (∀ c ∈ v, wsChar c = true) := by
  refine ⟨s.takeWhile wsChar, ((s.dropWhile wsChar).reverse.takeWhile wsChar).reverse,
    ?_, ?_, ?_⟩
  · have h1 : stripL s ++ ((s.dropWhile wsChar).reverse.takeWhile wsChar).reverse =
        s.dropWhile wsChar := by
      unfold stripL
      rw [← List.reverse_append, List.takeWhile_append_dropWhile, List.reverse_reverse]
    rw [List.append_assoc, h1, List.takeWhile_append_dropWhile]
  · intro c hc
    exact List.mem_takeWhile_imp hc
  · intro c hc
    rw [List.mem_reverse] at hc
    exact List.mem_takeWhile_imp hc

/-- Stripping edge whitespace never creates a word-bounded token occurrence. -/
theorem strip_preserve {P : List Char → Prop} {L : List Char}
    (h : HasTok P none (stripL L)) : HasTok P none L := by
  obtain ⟨u, v, hLuv, hu, hv⟩ := strip_decomp L
  obtain ⟨pre, tok, post, hP, hne, hw, heq, hl, hr⟩ := h
  rw [heq] at hLuv
  refine ⟨u ++ pre, tok, post ++ v, hP, hne, hw, ?_, ?_, ?_⟩
  · rw [hLuv]
    simp [List.append_assoc]
  · cases hpre : pre with
    | nil =>
      subst hpre
      rw [List.append_nil]
      unfold leftOk
      rcases hul : u.getLast? with _ | c
      · rfl
      · have hcm : c ∈ u := by
          have h7 : c ∈ u.reverse.head? := by
            rw [List.head?_reverse]
            exact hul
          rw [← List.mem_reverse]
          exact List.mem_of_mem_head? h7
        exact ws_not_word (hu c hcm)
    | cons p₀ ps =>
      subst hpre
      exact leftOk_append (by simp) hl
  · cases hpost : post with
    | nil =>
      simp only [List.nil_append]
      unfold rightOk
      rcases hvh : v.head? with _ | c
      · trivial
      · exact ws_not_word (hv c (List.mem_of_mem_head? hvh))
    | cons q₀ qs =>
      subst hpost
      show wordChar q₀ = false
      exact hr

/-! ## Whitespace normal form of the output -/

theorem noAdj_cons_iff (c : Char) (t : List Char) :
    noAdjWs (c :: t) = true ↔
      (noAdjWs t = true ∧ ∀ b, t.head? = some b →
        ¬(wsChar c = true ∧ wsChar b = true)) := by
  cases t with
  | nil =>
    constructor
    · intro _
      exact ⟨rfl, fun b hb => absurd hb (by simp)⟩
    · intro _
      rfl
  | cons b rest =>
    simp only [noAdjWs]
    rw [Bool.and_eq_true]
    constructor
    · rintro ⟨h1, h2⟩
      refine ⟨h2, fun x hx => ?_⟩
      simp only [List.head?_cons] at hx
      injection hx with hx'
      subst hx'
      rintro ⟨ha, hb2⟩
      rw [ha, hb2] at h1
      exact absurd h1 (by decide)
    · rintro ⟨h1, h2⟩
      refine ⟨?_, h1⟩
      have h3 := h2 b rfl
      rcases hc : wsChar c with _ | _
      · rfl
      · rcases hb2 : wsChar b with _ | _
        · rfl
        · exact absurd ⟨hc, hb2⟩ h3

theorem noAdjWs_iff_chain' :
    ∀ s : List Char, noAdjWs s = true ↔
      List.Chain' (fun a b => ¬(wsChar a = true ∧ wsChar b = true)) s := by
  intro s
  induction s with
  | nil =>
    constructor
    · intro _
      exact List.chain'_nil
    · intro _
      rfl
  | cons c t ih =>
    rw [noAdj_cons_iff, List.chain'_cons', ih]
    constructor
    · rintro ⟨h1, h2⟩
      exact ⟨fun y hy => h2 y (Option.mem_def.mp hy), h1⟩
    · rintro ⟨h1, h2⟩
      exact ⟨h2, fun b hb => h1 b (Option.mem_def.mpr hb)⟩

theorem collapse_noAdj : ∀ s : List Char, noAdjWs (collapseWs s) = true := by
  intro s
  induction s with
  | nil => rfl
  | cons a tail ih =>
    cases tail with
    | nil =>
      simp only [collapseWs]
      by_cases hwa : wsChar a = true
      · rw [if_pos hwa]
        rfl
      · rw [if_neg hwa]
        rfl
    | cons b rest =>
      simp only [collapseWs]
      by_cases hab : (wsChar a && wsChar b) = true
      · rw [if_pos hab]
        exact ih
      · rw [if_neg hab]
        rw [noAdj_cons_iff]
        refine ⟨ih, fun x hx => ?_⟩
        by_cases hwa : wsChar a = true
        · have hwb : wsChar b = false := by
            rcases hwb' : wsChar b with _ | _
            · rfl
            · exact absurd (by rw [hwa, hwb']; rfl) hab
          rw [collapse_head_nonws b rest hwb] at hx
          injection hx with hx'
          subst hx'
          rw [if_pos hwa]
          rintro ⟨_, h2⟩
          rw [hwb] at h2
          exact absurd h2 (by decide)
        · rw [if_neg hwa]
          rintro ⟨h1, _⟩
          exact hwa h1

theorem noAdj_stripL {L : List Char} (h : noAdjWs L = true) :
    noAdjWs (stripL L) = true := by
  rw [noAdjWs_iff_chain'] at h ⊢
  obtain ⟨u, v, hLuv, _, _⟩ := strip_decomp L
  exact List.Chain'.infix h ⟨u, v, hLuv.symm⟩

theorem spacesOnly_of (s : List Char) (h : ∀ c ∈ s, wsChar c = true → c = ' ') :
    spacesOnly s = true := by
  unfold spacesOnly
  rw [List.all_eq_true]
  intro c hcm
  rcases hw : wsChar c with _ | _
  · simp [hw]
  · have h1 := h c hcm hw
    subst h1
    decide

theorem noEdge_strip (L : List Char) : noEdgeWs (stripL L) = true := by
  unfold noEdgeWs
  rw [Bool.and_eq_true]
  constructor
  · rcases hh : (stripL L).head? with _ | c
    · rfl
    · show (!wsChar c) = true
      rw [stripL_head_not_ws hh]
      rfl
  · rcases hh : (stripL L).getLast? with _ | c
    · rfl
    · show (!wsChar c) = true
      rw [stripL_last_not_ws hh]
      rfl

theorem clean_ocr_char_cases (text : List Char) :
    ∀ c ∈ clean_ocr text, c = ' ' ∨ c ∈ lowerL text := by
  intro c hc
  have hc1 : c ∈ collapseWs (scrub matchStop (scrub matchCountry (scrub matchDigits
      (scrub matchWeight (lowerL text))))) := stripL_mem c hc
  rcases collapse_mem _ c hc1 with h | h
  · exact Or.inl h
  · right
    have h1 := (scrub_sublist tokenMatcher_matchStop _).subset h
    have h2 := (scrub_sublist tokenMatcher_matchCountry _).subset h1
    have h3 := (scrub_sublist tokenMatcher_matchDigits _).subset h2
    exact (scrub_sublist tokenMatcher_matchWeight _).subset h3

theorem clean_ocr_not_upper (text : List Char) :
    ∀ c ∈ clean_ocr text, c.isUpper = false := by
  intro c hc
  rcases clean_ocr_char_cases text c hc with h | h
  · subst h
    decide
  · unfold lowerL at h
    obtain ⟨x, _, hxc⟩ := List.mem_map.mp h
    rw [← hxc]
    exact toLower_isUpper_false x

theorem clean_ocr_no_tokens (text : List Char) :
    ¬ HasTok PStop none (clean_ocr text) ∧
    ¬ HasTok PUsa none (clean_ocr text) ∧
    ¬ HasTok PDigits none (clean_ocr text) := by
  set t0 := lowerL text with ht0
  set t1 := scrub matchWeight t0 with ht1
  set t2 := scrub matchDigits t1 with ht2
  set t3 := scrub matchCountry t2 with ht3
  set t4 := scrub matchStop t3 with ht4
  have hout : clean_ocr text = stripL (collapseWs t4) := rfl
  have hch2 : Chunks matchDigits none t1 t2 :=
    scrubF_chunks tokenMatcher_matchDigits t1.length none t1 (Nat.le_refl _)
  have hch3 : Chunks matchCountry none t2 t3 :=
    scrubF_chunks tokenMatcher_matchCountry t2.length none t2 (Nat.le_refl _)
  have hch4 : Chunks matchStop none t3 t4 :=
    scrubF_chunks tokenMatcher_matchStop t3.length none t3 (Nat.le_refl _)
  have hd2 : ¬ HasTok PDigits none t2 :=
    chunks_complete tokenMatcher_matchDigits PDigits matchDigits_fires hch2
  have hd3 : ¬ HasTok PDigits none t3 :=
    chunks_preserve tokenMatcher_matchCountry PDigits hch3 hd2
  have hd4 : ¬ HasTok PDigits none t4 :=
    chunks_preserve tokenMatcher_matchStop PDigits hch4 hd3
  have hu3 : ¬ HasTok PUsa none t3 :=
    chunks_complete tokenMatcher_matchCountry PUsa matchCountry_fires_usa hch3
  have hu4 : ¬ HasTok PUsa none t4 :=
    chunks_preserve tokenMatcher_matchStop PUsa hch4 hu3
  have hs4 : ¬ HasTok PStop none t4 :=
    chunks_complete tokenMatcher_matchStop PStop matchStop_fires hch4
  have hcol : ∀ (P : List Char → Prop), ¬ HasTok P none t4 →
      ¬ HasTok P none (stripL (collapseWs t4)) := by
    intro P hP hcon
    exact hP (collapse_preserve t4 none none rfl (strip_preserve hcon))
  rw [hout]
  exact ⟨hcol PStop hs4, hcol PUsa hu4, hcol PDigits hd4⟩

/-- C7 (amended): for every raw input, the Normalizer output is free of
word-bounded stopword occurrences, of word-bounded `usa` occurrences and of
word-bounded numeric runs of length ≥ 10; every character is non-uppercase;
all whitespace is single plain spaces with no whitespace at either end.
(The weight-token and `united states` clauses of the original claim are
dropped: whitespace collapsing can re-create those, see the counterexample.) -/
theorem C7_normalizer_output (text : List Char) :
    ¬ HasTok PStop none (clean_ocr text) ∧
    ¬ HasTok PUsa none (clean_ocr text) ∧
    ¬ HasTok PDigits none (clean_ocr text) ∧
    (∀ c ∈ clean_ocr text, c.isUpper = false) ∧
    spacesOnly (clean_ocr text) = true ∧
    noAdjWs (clean_ocr text) = true ∧
    noEdgeWs (clean_ocr text) = true := by
  obtain ⟨h1, h2, h3⟩ := clean_ocr_no_tokens text
  refine ⟨h1, h2, h3, clean_ocr_not_upper text, ?_, ?_, ?_⟩
  · show spacesOnly (stripL (collapseWs (scrub matchStop (scrub matchCountry
      (scrub matchDigits (scrub matchWeight (lowerL text))))))) = true
    exact spacesOnly_of _ (fun c hc hw => collapse_ws_space _ c (stripL_mem c hc) hw)
  · show noAdjWs (stripL (collapseWs (scrub matchStop (scrub matchCountry
      (scrub matchDigits (scrub matchWeight (lowerL text))))))) = true
    exact noAdj_stripL (collapse_noAdj _)
  · show noEdgeWs (stripL (collapseWs (scrub matchStop (scrub matchCountry
      (scrub matchDigits (scrub matchWeight (lowerL text))))))) = true
    exact noEdge_strip _

/-- C7 counterexample: the whitespace-collapsing step can re-create a weight
token and the `united states` token after the substitution passes have run,
so the Normalizer output is not free of those two patterns. -/
theorem C7_counterexample :
    clean_ocr ("2  lbs" : String).data = ("2 lbs" : String).data ∧
    matchWeight none ("2 lbs" : String).data = some 5 ∧
    clean_ocr ("united  states" : String).data = ("united states" : String).data ∧
    matchCountry none ("united states" : String).data = some 13 :=
  ⟨by decide, by decide, by decide, by decide⟩

end Extract
